import Mathlib

/-!
Verification of the `abstract_map` spatial layout engine
(`src/abstract_map/spatial_layout.py`) against its natural-language
specification.

The Python source works on numpy float arrays; the shallow embedding below
models the scalar type as `ℝ` (exact real arithmetic), two-dimensional numpy
vectors as `ℝ × ℝ`, the phase vector as `List ℝ`, Python object identity for
mass objects as natural-number identifiers resolved through a `Store`
(identifier to mass-record map), and exceptions / unbounded loops as `Option`
results (with explicit fuel for `while` loops).  `x ** 0.5` is modelled as
`Real.sqrt` (its arguments are non-negative on every path the source reaches),
`numpy.arctan2 y x` as `Complex.arg ⟨x, y⟩`, and Python's floored float
modulus as `pymod`.
-/

noncomputable section
open scoped Classical

/-! ## Constants (spatial_layout.py lines 17-28) -/

def FRICTION_COEFFICIENT : ℝ := 1
def INTEGRATION_DT : ℝ := 1 / 10
def SAFE_DISTANCE : ℝ := 1 / 5

/-! ## Geometry primitives (spatial_layout.py lines 715-810) -/

/-- Two-dimensional vector, as a numpy array of shape (2). -/
abbrev Vec2 : Type := ℝ × ℝ

/-- Scalar times vector (numpy broadcasting `c * v`). -/
def smul2 (c : ℝ) (v : Vec2) : Vec2 := (c * v.1, c * v.2)

/-- Python's float `%` (floored modulus): `a % b = a - b * ⌊a / b⌋`. -/
def pymod (a b : ℝ) : ℝ := a - b * ⌊a / b⌋

/-- `numpy.arctan2 y x`, the angle of the point `(x, y)`, in `(-π, π]`. -/
def arctan2 (y x : ℝ) : ℝ := Complex.arg ⟨x, y⟩

/-- `_angleWrap` (lines 726-732): returns the angle in the range `[-π, +π)`.
The `if ret < 0` branch mirrors the source; for real arithmetic (and for
numpy's floored modulus) it is never taken. -/
def angleWrap (angle : ℝ) : ℝ :=
  let ret := pymod (angle + Real.pi) (2 * Real.pi)
  (if ret < 0 then ret + 2 * Real.pi else ret) - Real.pi

/-- `_angle` (lines 715-723): angle of `a` relative to `b`
(optionally relative to the direction of `c` from `b`). -/
def angle (pa pb : Vec2) (pc : Option Vec2 := none) : ℝ :=
  let v_ab := pa - pb
  let ret := arctan2 v_ab.2 v_ab.1
  let ret := match pc with
    | none => ret
    | some pcv =>
        let v_cb := pcv - pb
        ret - arctan2 v_cb.2 v_cb.1
  angleWrap ret

/-- `_distance` (lines 735-738), written on the two mass positions. -/
def pdistance (pa pb : Vec2) : ℝ :=
  let ab := pa - pb
  Real.sqrt (ab.1 ^ 2 + ab.2 ^ 2)

/-- `_uv` (lines 802-806): unit vector pointing to `a` from `b`,
`(1, 0)` when the positions coincide. -/
def uv (pa pb : Vec2) : Vec2 :=
  let ab := pa - pb
  if pa = pb then (1, 0)
  else smul2 (1 / Real.sqrt (ab.1 ^ 2 + ab.2 ^ 2)) ab

/-- `_orthog` (lines 809-810). -/
def orthog (v : Vec2) : Vec2 := (-v.2, v.1)

/-- `_rotateVectorTo` (lines 796-799). -/
def rotateVectorTo (v : Vec2) (a : ℝ) : Vec2 :=
  let r := Real.sqrt (v.1 ^ 2 + v.2 ^ 2)
  (r * Real.cos a, r * Real.sin a)

/-- `_reflectedDirection` (lines 775-783). -/
def reflectedDirection (start_point reflect_point reflect_origin : Vec2) : ℝ :=
  let ro := reflect_origin - reflect_point
  let sr := reflect_point - start_point
  angleWrap (arctan2 (-ro.2) (-ro.1) -
    (arctan2 sr.2 sr.1 - arctan2 ro.2 ro.1))

/-- `_reflectedPosition` (lines 786-793). -/
def reflectedPosition (start_point step reflect_point : Vec2)
    (reflect_direction : ℝ) : Vec2 :=
  let reflect_step := reflect_point - start_point
  let r := Real.sqrt (step.1 ^ 2 + step.2 ^ 2) -
    Real.sqrt (reflect_step.1 ^ 2 + reflect_step.2 ^ 2)
  reflect_point + smul2 r (Real.cos reflect_direction, Real.sin reflect_direction)

/-- `_firstCircleIntersect` (lines 741-772).  `none` models the raised
`ValueError("Intersection discriminant < 0")`. -/
def firstCircleIntersect (line_a line_b circle_center : Vec2) (circle_r : ℝ) :
    Option Vec2 :=
  let disp := line_b - line_a
  let use_vertical : Prop := |disp.1| < |disp.2|
  let m := if use_vertical then disp.1 / disp.2 else disp.2 / disp.1
  let c := if use_vertical then -m * line_a.2 + line_a.1
           else -m * line_a.1 + line_a.2
  let quad_a := -1 - m ^ 2
  let quad_b := -2 * m * c +
      2 * m * (if use_vertical then circle_center.1 else circle_center.2) +
      2 * (if use_vertical then circle_center.2 else circle_center.1)
  let quad_c := -c ^ 2 + circle_r ^ 2 - circle_center.1 ^ 2 -
      circle_center.2 ^ 2 +
      2 * c * (if use_vertical then circle_center.1 else circle_center.2)
  let discriminant := quad_b ^ 2 - 4 * quad_a * quad_c
  if discriminant < 0 then none
  else
    let root_1 := (-quad_b + Real.sqrt discriminant) / (2 * quad_a)
    let root_2 := (-quad_b - Real.sqrt discriminant) / (2 * quad_a)
    let intersect_1 : Vec2 := (if use_vertical then m * root_1 + c else root_1,
                               if use_vertical then root_1 else m * root_1 + c)
    let intersect_2 : Vec2 := (if use_vertical then m * root_2 + c else root_2,
                               if use_vertical then root_2 else m * root_2 + c)
    let d1 := intersect_1 - line_a
    let d2 := intersect_2 - line_a
    some (if Real.sqrt (d1.1 ^ 2 + d1.2 ^ 2) < Real.sqrt (d2.1 ^ 2 + d2.2 ^ 2)
          then intersect_1 else intersect_2)

/-- The quadratic discriminant computed inside `_firstCircleIntersect`
(same intermediate quantities as the source, lines 744-757). -/
def fciDiscriminant (line_a line_b circle_center : Vec2) (circle_r : ℝ) : ℝ :=
  let disp := line_b - line_a
  let use_vertical : Prop := |disp.1| < |disp.2|
  let m := if use_vertical then disp.1 / disp.2 else disp.2 / disp.1
  let c := if use_vertical then -m * line_a.2 + line_a.1
           else -m * line_a.1 + line_a.2
  let quad_a := -1 - m ^ 2
  let quad_b := -2 * m * c +
      2 * m * (if use_vertical then circle_center.1 else circle_center.2) +
      2 * (if use_vertical then circle_center.2 else circle_center.1)
  let quad_c := -c ^ 2 + circle_r ^ 2 - circle_center.1 ^ 2 -
      circle_center.2 ^ 2 +
      2 * c * (if use_vertical then circle_center.1 else circle_center.2)
  quad_b ^ 2 - 4 * quad_a * quad_c

/-! ### `_angleWrap` basic facts (claim C7) -/

theorem pymod_nonneg (a : ℝ) {b : ℝ} (hb : 0 < b) : 0 ≤ pymod a b := by
  unfold pymod
  have h := Int.sub_floor_div_mul_nonneg a hb
  simpa [mul_comm] using h

theorem pymod_lt (a : ℝ) {b : ℝ} (hb : 0 < b) : pymod a b < b := by
  unfold pymod
  have h := Int.sub_floor_div_mul_lt a hb
  simpa [mul_comm] using h

theorem angleWrap_eq_of_mem {x : ℝ} (hx : -Real.pi ≤ x) (hx2 : x < Real.pi) :
    angleWrap x = x := by
  have hpi : (0 : ℝ) < Real.pi := Real.pi_pos
  have h2pi : (0 : ℝ) < 2 * Real.pi := by linarith
  have hfloor : ⌊(x + Real.pi) / (2 * Real.pi)⌋ = 0 := by
    apply Int.floor_eq_zero_iff.mpr
    constructor
    · exact div_nonneg (by linarith) (by linarith)
    · rw [div_lt_one h2pi]; linarith
  have hret : pymod (x + Real.pi) (2 * Real.pi) = x + Real.pi := by
    unfold pymod; rw [hfloor]; push_cast; ring
  simp only [angleWrap, hret]
  rw [if_neg (by linarith)]
  ring

/-- C7: for every real `x`, `_angleWrap x` lies in `[-π, π)`, and `_angleWrap`
is idempotent: `_angleWrap (_angleWrap x) = _angleWrap x`. -/
theorem angleWrap_mem_Ico_and_idempotent (x : ℝ) :
    angleWrap x ∈ Set.Ico (-Real.pi) Real.pi ∧
      angleWrap (angleWrap x) = angleWrap x := by
  have hpi : (0 : ℝ) < Real.pi := Real.pi_pos
  have h2pi : (0 : ℝ) < 2 * Real.pi := by linarith
  have h0 : 0 ≤ pymod (x + Real.pi) (2 * Real.pi) := pymod_nonneg _ h2pi
  have h1 : pymod (x + Real.pi) (2 * Real.pi) < 2 * Real.pi := pymod_lt _ h2pi
  have hval : angleWrap x = pymod (x + Real.pi) (2 * Real.pi) - Real.pi := by
    simp only [angleWrap]
    rw [if_neg (by linarith)]
  have hmem : angleWrap x ∈ Set.Ico (-Real.pi) Real.pi := by
    rw [hval]
    constructor <;> [linarith; linarith]
  exact ⟨hmem, angleWrap_eq_of_mem hmem.1 hmem.2⟩

/-! ### `_firstCircleIntersect` correctness (claim C9) -/

/-- `q` lies on the line through `a` and `b` (cross-product form). -/
def onLineThrough (a b q : Vec2) : Prop :=
  (q.1 - a.1) * (b.2 - a.2) = (q.2 - a.2) * (b.1 - a.1)

/-- `q` lies on the circle of centre `cc` and radius `r`. -/
def onCircleBoundary (cc : Vec2) (r : ℝ) (q : Vec2) : Prop :=
  (q.1 - cc.1) ^ 2 + (q.2 - cc.2) ^ 2 = r ^ 2

/-- Selecting, of the two quadratic-formula roots, the point nearer to `A`
yields the solution of `S` nearest to `A`, whenever `S` is exactly
parametrised by the roots of the quadratic. -/
theorem nearestRootSelect (A : Vec2) (mk : ℝ → Vec2) (S : Vec2 → Prop)
    (qa qb qc : ℝ) (ha : qa ≠ 0) (hd : 0 ≤ discrim qa qb qc)
    (h1 : ∀ q, S q ↔ ∃ x, q = mk x ∧ qa * x ^ 2 + qb * x + qc = 0) :
    S (if pdistance (mk ((-qb + Real.sqrt (discrim qa qb qc)) / (2 * qa))) A <
          pdistance (mk ((-qb - Real.sqrt (discrim qa qb qc)) / (2 * qa))) A
       then mk ((-qb + Real.sqrt (discrim qa qb qc)) / (2 * qa))
       else mk ((-qb - Real.sqrt (discrim qa qb qc)) / (2 * qa))) ∧
    ∀ q, S q →
      pdistance (if pdistance (mk ((-qb + Real.sqrt (discrim qa qb qc)) / (2 * qa))) A <
            pdistance (mk ((-qb - Real.sqrt (discrim qa qb qc)) / (2 * qa))) A
         then mk ((-qb + Real.sqrt (discrim qa qb qc)) / (2 * qa))
         else mk ((-qb - Real.sqrt (discrim qa qb qc)) / (2 * qa))) A ≤
        pdistance q A := by
  set s := Real.sqrt (discrim qa qb qc) with hs_def
  have hs : discrim qa qb qc = s * s := (Real.mul_self_sqrt hd).symm
  have hroot : ∀ x : ℝ, qa * x ^ 2 + qb * x + qc = 0 ↔
      x = (-qb + s) / (2 * qa) ∨ x = (-qb - s) / (2 * qa) := fun x => by
    have h := quadratic_eq_zero_iff ha hs x
    rwa [show x * x = x ^ 2 by ring] at h
  have hr1 : S (mk ((-qb + s) / (2 * qa))) :=
    (h1 _).2 ⟨_, rfl, (hroot _).2 (Or.inl rfl)⟩
  have hr2 : S (mk ((-qb - s) / (2 * qa))) :=
    (h1 _).2 ⟨_, rfl, (hroot _).2 (Or.inr rfl)⟩
  constructor
  · split_ifs <;> assumption
  · intro q hq
    obtain ⟨x, hqx, hx0⟩ := (h1 q).1 hq
    have hor := (hroot x).1 hx0
    split_ifs with hcmp
    · rcases hor with h | h
      · exact le_of_eq (by rw [hqx, h])
      · refine le_of_lt ?_
        rw [hqx, h]
        exact hcmp
    · rcases hor with h | h
      · rw [hqx, h]
        exact not_lt.mp hcmp
      · exact le_of_eq (by rw [hqx, h])

/-- C9: `_firstCircleIntersect a b c r` (for a genuine segment, `a ≠ b`)
raises the no-intersection error exactly when the quadratic discriminant is
negative; when the discriminant is non-negative it returns a point of the
line through `a` and `b` on the circle `(c, r)` that is nearest to `a`. -/
theorem firstCircleIntersect_correct (la lb cc : Vec2) (r : ℝ)
    (hab : la ≠ lb) :
    (firstCircleIntersect la lb cc r = none ↔ fciDiscriminant la lb cc r < 0) ∧
    (0 ≤ fciDiscriminant la lb cc r →
      ∃ p, firstCircleIntersect la lb cc r = some p ∧
        onLineThrough la lb p ∧ onCircleBoundary cc r p ∧
        ∀ q, onLineThrough la lb q → onCircleBoundary cc r q →
          pdistance p la ≤ pdistance q la) := by
  by_cases huv : |(lb - la).1| < |(lb - la).2|
  · -- `use_vertical` branch: the line is solved as `x = m·y + c`.
    have hdy : lb.2 - la.2 ≠ 0 := by
      intro h0
      rw [show (lb - la).2 = lb.2 - la.2 from rfl, h0] at huv
      simp only [abs_zero] at huv
      exact absurd huv (not_lt.mpr (abs_nonneg _))
    simp only [firstCircleIntersect, fciDiscriminant, Prod.fst_sub,
      Prod.snd_sub] at huv ⊢
    simp only [if_pos huv]
    set dx := lb.1 - la.1 with hdx_def
    set dy := lb.2 - la.2 with hdy_def
    set m := dx / dy with hm_def
    set cl := -m * la.2 + la.1 with hcl_def
    set qa := -1 - m ^ 2 with hqa_def
    set qb := -2 * m * cl + 2 * m * cc.1 + 2 * cc.2 with hqb_def
    set qc := -cl ^ 2 + r ^ 2 - cc.1 ^ 2 - cc.2 ^ 2 + 2 * cl * cc.1
      with hqc_def
    have ha : qa ≠ 0 := by rw [hqa_def]; nlinarith [sq_nonneg m]
    have h1 : ∀ q : Vec2, (onLineThrough la lb q ∧ onCircleBoundary cc r q) ↔
        ∃ x, q = (m * x + cl, x) ∧ qa * x ^ 2 + qb * x + qc = 0 := by
      intro q
      constructor
      · rintro ⟨hl, hcirc⟩
        unfold onLineThrough at hl
        unfold onCircleBoundary at hcirc
        rw [← hdx_def, ← hdy_def] at hl
        have hq1 : q.1 = m * q.2 + cl := by
          rw [hm_def, hcl_def, hm_def]
          field_simp
          linear_combination hl
        refine ⟨q.2, ?_, ?_⟩
        · exact Prod.ext hq1 rfl
        · rw [hq1] at hcirc
          rw [hqa_def, hqb_def, hqc_def]
          linear_combination -hcirc
      · rintro ⟨x, hqx, hx⟩
        subst hqx
        constructor
        · unfold onLineThrough
          rw [← hdx_def, ← hdy_def]
          simp only [hm_def, hcl_def]
          field_simp
          ring
        · unfold onCircleBoundary
          rw [hqa_def, hqb_def, hqc_def] at hx
          simp only
          linear_combination -hx
    constructor
    · split_ifs with h <;> simp [h]
    · intro hd
      rw [if_neg (not_lt.2 hd)]
      have hd' : 0 ≤ discrim qa qb qc := by unfold discrim; exact hd
      obtain ⟨hS, hnear⟩ := nearestRootSelect la (fun x => (m * x + cl, x))
        (fun q => onLineThrough la lb q ∧ onCircleBoundary cc r q)
        qa qb qc ha hd' h1
      simp only [pdistance, discrim, Prod.fst_sub, Prod.snd_sub] at hS hnear
      exact ⟨_, rfl, hS.1, hS.2, fun q hq1 hq2 => hnear q ⟨hq1, hq2⟩⟩
  · -- horizontal branch: the line is solved as `y = m·x + c`.
    have hdx : lb.1 - la.1 ≠ 0 := by
      intro h0
      apply hab
      have h2 : |(lb - la).2| ≤ |(lb - la).1| := not_lt.mp huv
      rw [show (lb - la).1 = lb.1 - la.1 from rfl, h0] at h2
      simp only [abs_zero, abs_nonpos_iff] at h2
      have h2' : lb.2 - la.2 = 0 := by
        simpa [show (lb - la).2 = lb.2 - la.2 from rfl] using h2
      exact (Prod.ext (by linarith) (by linarith)).symm
    simp only [firstCircleIntersect, fciDiscriminant, Prod.fst_sub,
      Prod.snd_sub] at huv ⊢
    simp only [if_neg huv]
    set dx := lb.1 - la.1 with hdx_def
    set dy := lb.2 - la.2 with hdy_def
    set m := dy / dx with hm_def
    set cl := -m * la.1 + la.2 with hcl_def
    set qa := -1 - m ^ 2 with hqa_def
    set qb := -2 * m * cl + 2 * m * cc.2 + 2 * cc.1 with hqb_def
    set qc := -cl ^ 2 + r ^ 2 - cc.1 ^ 2 - cc.2 ^ 2 + 2 * cl * cc.2
      with hqc_def
    have ha : qa ≠ 0 := by rw [hqa_def]; nlinarith [sq_nonneg m]
    have h1 : ∀ q : Vec2, (onLineThrough la lb q ∧ onCircleBoundary cc r q) ↔
        ∃ x, q = (x, m * x + cl) ∧ qa * x ^ 2 + qb * x + qc = 0 := by
      intro q
      constructor
      · rintro ⟨hl, hcirc⟩
        unfold onLineThrough at hl
        unfold onCircleBoundary at hcirc
        rw [← hdx_def, ← hdy_def] at hl
        have hq2 : q.2 = m * q.1 + cl := by
          rw [hm_def, hcl_def, hm_def]
          field_simp
          linear_combination -hl
        refine ⟨q.1, ?_, ?_⟩
        · exact Prod.ext rfl hq2
        · rw [hq2] at hcirc
          rw [hqa_def, hqb_def, hqc_def]
          linear_combination -hcirc
      · rintro ⟨x, hqx, hx⟩
        subst hqx
        constructor
        · unfold onLineThrough
          rw [← hdx_def, ← hdy_def]
          simp only [hm_def, hcl_def]
          field_simp
          ring
        · unfold onCircleBoundary
          rw [hqa_def, hqb_def, hqc_def] at hx
          simp only
          linear_combination -hx
    constructor
    · split_ifs with h <;> simp [h]
    · intro hd
      rw [if_neg (not_lt.2 hd)]
      have hd' : 0 ≤ discrim qa qb qc := by unfold discrim; exact hd
      obtain ⟨hS, hnear⟩ := nearestRootSelect la (fun x => (x, m * x + cl))
        (fun q => onLineThrough la lb q ∧ onCircleBoundary cc r q)
        qa qb qc ha hd' h1
      simp only [pdistance, discrim, Prod.fst_sub, Prod.snd_sub] at hS hnear
      exact ⟨_, rfl, hS.1, hS.2, fun q hq1 hq2 => hnear q ⟨hq1, hq2⟩⟩

/-- Concrete instance for `firstCircleIntersect_correct`: the segment from
`(0,0)` to `(2,0)` and the unit circle centred at `(1,0)`. -/
theorem firstCircleIntersect_correct_witness :
    ((0 : ℝ), (0 : ℝ)) ≠ ((2 : ℝ), (0 : ℝ)) ∧
    (firstCircleIntersect ((0 : ℝ), (0 : ℝ)) (2, 0) (1, 0) 1 = none ↔
      fciDiscriminant ((0 : ℝ), (0 : ℝ)) (2, 0) (1, 0) 1 < 0) := by
  have h : ((0 : ℝ), (0 : ℝ)) ≠ ((2 : ℝ), (0 : ℝ)) := by
    simp [Prod.ext_iff]
  exact ⟨h, (firstCircleIntersect_correct _ _ _ _ h).1⟩


/-! ## Masses (spatial_layout.py lines 412-452)

Python mass objects are mutable and compared by object identity; the
embedding keys them by a natural-number identifier resolved through a
`Store`. -/

structure MassData where
  name : String
  pos : Vec2
  vel : Vec2
  acc : Vec2
  mass : ℝ
  fixed : Bool

/-- `MassFixed.__init__` (lines 415-424). -/
def mkMassFixed (name : String) (pos : Vec2) : MassData :=
  { name := name, pos := pos, vel := (0, 0), acc := (0, 0), mass := 1,
    fixed := true }

/-- `Mass.__init__` (lines 438-444); omitted arguments default to zero. -/
def mkMass (name : String) (pos : Vec2 := (0, 0)) (vel : Vec2 := (0, 0))
    (acc : Vec2 := (0, 0)) : MassData :=
  { name := name, pos := pos, vel := vel, acc := acc, mass := 1,
    fixed := false }

/-- `applyFriction` (lines 426-428 and 446-448): a no-op for a fixed mass,
`acc += -FRICTION_COEFFICIENT * vel` for a free one. -/
def MassData.applyFriction (m : MassData) : MassData :=
  if m.fixed then m
  else { m with acc := m.acc + smul2 (-FRICTION_COEFFICIENT) m.vel }

/-- `totalEnergy` (lines 430-432 and 450-452): kinetic energy, zero for a
fixed mass. -/
def MassData.totalEnergy (m : MassData) : ℝ :=
  if m.fixed then 0 else 0.5 * m.mass * (m.vel.1 ^ 2 + m.vel.2 ^ 2)

/-- The heap of mass objects: identifier to current mass record. -/
def Store : Type := ℕ → MassData

/-- Overwrite the record of one mass object. -/
def Store.set (σ : Store) (i : ℕ) (d : MassData) : Store :=
  fun j => if j = i then d else σ j

/-- numpy `v / c` for a 2-vector and a scalar. -/
def vdiv (v : Vec2) (c : ℝ) : Vec2 := (v.1 / c, v.2 / c)

/-! ## Constraints (spatial_layout.py lines 455-712) -/

/-- The closed family of constraints: `ConstraintDistance` (lines 497-549),
`ConstraintAngleGlobal` (lines 552-606), `ConstraintAngleLocal`
(lines 609-712); fields are the mass identifiers `_mass_a`, `_mass_b`
(, `_mass_c`), `_natural_length`, `_stiffness` and `_tag_id`. -/
inductive Constraint where
  | distance (mass_a mass_b : ℕ) (natural_length stiffness : ℝ) (tag_id : ℤ)
  | angleGlobal (mass_a mass_b : ℕ) (natural_length stiffness : ℝ) (tag_id : ℤ)
  | angleLocal (mass_a mass_b mass_c : ℕ) (natural_length stiffness : ℝ)
      (tag_id : ℤ)

namespace Constraint

/-- `masses()` (lines 528-530, 584-586, 655-657). -/
def masses : Constraint → List ℕ
  | distance a b _ _ _ => [a, b]
  | angleGlobal a b _ _ _ => [a, b]
  | angleLocal a b c _ _ _ => [a, b, c]

def tag_id : Constraint → ℤ
  | distance _ _ _ _ t => t
  | angleGlobal _ _ _ _ t => t
  | angleLocal _ _ _ _ _ t => t

def stiffness : Constraint → ℝ
  | distance _ _ _ k _ => k
  | angleGlobal _ _ _ k _ => k
  | angleLocal _ _ _ _ k _ => k

/-- Rebinding of the `i`-th participant slot (`c._mass_a = m_found`, ...;
lines 158-164). -/
def setSlot (c : Constraint) (i : ℕ) (newid : ℕ) : Constraint :=
  match c, i with
  | distance _ b l k t, 0 => distance newid b l k t
  | distance a _ l k t, 1 => distance a newid l k t
  | angleGlobal _ b l k t, 0 => angleGlobal newid b l k t
  | angleGlobal a _ l k t, 1 => angleGlobal a newid l k t
  | angleLocal _ b c l k t, 0 => angleLocal newid b c l k t
  | angleLocal a _ c l k t, 1 => angleLocal a newid c l k t
  | angleLocal a b _ l k t, 2 => angleLocal a b newid l k t
  | c, _ => c

/-- `length()` (lines 532-534, 588-590, 659-661). -/
def length (σ : Store) : Constraint → ℝ
  | distance a b _ _ _ => pdistance (σ a).pos (σ b).pos
  | angleGlobal a b _ _ _ => angle (σ a).pos (σ b).pos
  | angleLocal a b c _ _ _ => angle (σ a).pos (σ b).pos (some (σ c).pos)

/-- `displacement()` (lines 524-526, 580-582, 651-653). -/
def displacement (σ : Store) : Constraint → ℝ
  | distance a b l k t => (distance a b l k t).length σ - l
  | angleGlobal a b l k t => angleWrap ((angleGlobal a b l k t).length σ - l)
  | angleLocal a b c l k t =>
      angleWrap ((angleLocal a b c l k t).length σ - l)

/-- `Constraint.totalEnergy` (lines 467-469): potential energy
`½·k·displacement²`. -/
def totalEnergy (σ : Store) (c : Constraint) : ℝ :=
  0.5 * c.stiffness * c.displacement σ ^ 2

/-- `applyForce` (lines 514-522, 569-578, 633-649), threading the sequential
mutations of the mass records through the store. -/
def applyForce (σ : Store) : Constraint → Store
  | distance a b l k t =>
      let force_vector :=
        smul2 (-k * (distance a b l k t).displacement σ)
          (uv (σ a).pos (σ b).pos)
      let σ1 := if (σ a).fixed then σ
        else σ.set a { σ a with
          acc := (σ a).acc + vdiv force_vector (σ a).mass }
      if (σ1 b).fixed then σ1
      else σ1.set b { σ1 b with
        acc := (σ1 b).acc + vdiv (-force_vector) (σ1 b).mass }
  | angleGlobal a b l k t =>
      let force_vector :=
        smul2 (-k * (angleGlobal a b l k t).displacement σ /
            pdistance (σ a).pos (σ b).pos)
          (orthog (uv (σ a).pos (σ b).pos))
      let σ1 := if (σ a).fixed then σ
        else σ.set a { σ a with
          acc := (σ a).acc + vdiv force_vector (σ a).mass }
      if (σ1 b).fixed then σ1
      else σ1.set b { σ1 b with
        acc := (σ1 b).acc + vdiv (-force_vector) (σ1 b).mass }
  | angleLocal a b c l k t =>
      let disp := (angleLocal a b c l k t).displacement σ
      let force_vector_a :=
        smul2 (-k * disp / pdistance (σ a).pos (σ b).pos)
          (orthog (uv (σ a).pos (σ b).pos))
      let force_vector_c :=
        smul2 (-k * disp / pdistance (σ c).pos (σ b).pos)
          (-orthog (uv (σ c).pos (σ b).pos))
      let acc_a := vdiv force_vector_a (σ a).mass
      let acc_c := vdiv force_vector_c (σ c).mass
      let σ1 := if (σ a).fixed then σ
        else σ.set a { σ a with acc := (σ a).acc + acc_a }
      let σ2 := if (σ1 b).fixed then σ1
        else σ1.set b { σ1 b with acc := (σ1 b).acc + (-acc_a + -acc_c) }
      if (σ2 c).fixed then σ2
      else σ2.set c { σ2 c with acc := (σ2 c).acc + acc_c }

/-- `placementSuggestion` for `ConstraintAngleLocal` applied to `_mass_b`
(lines 673-702): the 20-iteration bisection over `[-π, π]`; returns the
`mid` of the final iteration. -/
def bisectMid (pa pc : Vec2) (r natural : ℝ) : ℕ → ℝ → ℝ → ℝ
  | 0, lo, hi => (lo + hi) / 2
  | n + 1, lo, hi =>
      let mid := (lo + hi) / 2
      let dummy_pos := pa + smul2 r (Real.cos mid, Real.sin mid)
      let error := angle pa dummy_pos (some pc) - natural
      if n = 0 then mid
      else if error > 0 then bisectMid pa pc r natural n lo mid
      else bisectMid pa pc r natural n mid hi

/-- `placementSuggestion` result: the Python dict with key `'mass'` and
optional keys `'r'` and `'th'`; the empty dict is `Option.none` upstream. -/
structure Suggestion where
  mass : ℕ
  r : Option (ℝ × ℝ) := none
  th : Option (ℝ × ℝ) := none

/-- `placementSuggestion` (lines 536-549, 592-606, 663-712). -/
def placementSuggestion (σ : Store) (c : Constraint) (m : ℕ) :
    Option Suggestion :=
  match c with
  | distance a b l k _ =>
      if m = a then some { mass := b, r := some (l, k) }
      else if m = b then some { mass := a, r := some (l, k) }
      else none
  | angleGlobal a b l k _ =>
      if m = a then some { mass := b, th := some (l, k) }
      else if m = b then
        some { mass := a, th := some (angleWrap (l + Real.pi), k) }
      else none
  | angleLocal a b c l k _ =>
      if m = a then
        some { mass := b,
               th := some (angleWrap (angle (σ c).pos (σ b).pos + l), k) }
      else if m = b then
        let r := (1 - |l| / (2 * Real.pi)) * pdistance (σ a).pos (σ c).pos
        let mid := bisectMid (σ a).pos (σ c).pos r l 20 (-Real.pi) Real.pi
        some { mass := a, r := some (r, k / 2), th := some (mid, k / 2) }
      else if m = c then
        some { mass := b,
               th := some (angleWrap (angle (σ a).pos (σ b).pos - l), k) }
      else none

end Constraint

/-! ## The layout container (spatial_layout.py lines 52-401)

The observable effects of `markStateChanged` are modelled explicitly: the
`_system_changed` flag, the energy log (`none` when construction passed
`log_energy=False`), and the number of invocations of the
`_post_state_change_fcn` observer hook (counted when a hook is installed).
The RK4 integrator state `_ode.y` / `_ode.t` lives in `ode_y` / `ode_t`. -/

structure SpatialLayout where
  constraints : List Constraint
  masses : List ℕ
  system_changed : Bool
  bounced_last_step : Bool
  energy_log : Option (List (ℝ × ℝ × ℝ))
  has_hook : Bool
  hook_runs : ℕ
  ode_y : List ℝ
  ode_t : ℝ

namespace SpatialLayout

/-- `SpatialLayout.__init__` (lines 55-71). -/
def newLayout (log_energy : Bool) : SpatialLayout :=
  { constraints := [], masses := [], system_changed := false,
    bounced_last_step := false,
    energy_log := if log_energy then some [] else none,
    has_hook := false, hook_runs := 0, ode_y := [], ode_t := 0 }

/-- Total kinetic energy, `sum([m.totalEnergy() for m in layout._masses])`
(line 393). -/
def kineticSum (σ : Store) (L : SpatialLayout) : ℝ :=
  (L.masses.map fun i => (σ i).totalEnergy).sum

/-- Total potential energy,
`sum([c.totalEnergy() for c in layout._constraints])` (lines 394-395). -/
def potentialSum (σ : Store) (L : SpatialLayout) : ℝ :=
  (L.constraints.map fun c => c.totalEnergy σ).sum

/-- `EnergyLog.logEnergy` via `SpatialLayout.logEnergy` (lines 309-312 and
390-395): appends `(t, kinetic, potential)` when logging is enabled. -/
def logEnergy (σ : Store) (L : SpatialLayout) : SpatialLayout :=
  match L.energy_log with
  | none => L
  | some entries =>
      let entry := (L.ode_t, kineticSum σ L, potentialSum σ L)
      { L with energy_log := some (entries ++ [entry]) }

/-- `resetEnergyLog` (lines 351-354). -/
def resetEnergyLog (L : SpatialLayout) : SpatialLayout :=
  match L.energy_log with
  | none => L
  | some _ => { L with energy_log := some [] }

/-- `markStateChanged` (lines 314-324). -/
def markStateChanged (σ : Store) (L : SpatialLayout)
    (system_changed : Bool := true) (reset : Bool := false) : SpatialLayout :=
  let L1 := { L with system_changed := system_changed }
  let L2 := if reset then L1.resetEnergyLog else L1
  let L3 := logEnergy σ L2
  if L3.has_hook then { L3 with hook_runs := L3.hook_runs + 1 } else L3

/-- `getMass` (lines 183-185): first owned mass with the requested name. -/
def getMass (σ : Store) (L : SpatialLayout) (name : String) : Option ℕ :=
  L.masses.find? fun i => (σ i).name == name

/-- `addMass` (lines 175-181): insert only if the object (identifier) is not
already owned; membership is Python object identity. -/
def addMass (σ : Store) (L : SpatialLayout) (m : ℕ) : SpatialLayout :=
  if m ∈ L.masses then L
  else markStateChanged σ { L with masses := L.masses ++ [m] }

/-- The rebinding loop of `addConstraint` (lines 155-164): for each original
participant slot, if a mass with the same name is already owned, rebind the
slot to the owned instance. -/
def rebindConstraint (σ : Store) (L : SpatialLayout) (c : Constraint) :
    Constraint :=
  c.masses.enum.foldl
    (fun cacc p =>
      match getMass σ L (σ p.2).name with
      | some m_found => cacc.setSlot p.1 m_found
      | none => cacc)
    c

/-- `addConstraint` (lines 153-173). -/
def addConstraint (σ : Store) (L : SpatialLayout) (c : Constraint) :
    SpatialLayout :=
  let c1 := rebindConstraint σ L c
  let L1 := c1.masses.foldl (fun Lacc m => addMass σ Lacc m) L
  let L2 := { L1 with constraints := L1.constraints ++ [c1] }
  markStateChanged σ L2

/-- `addConstraints` (lines 149-151). -/
def addConstraints (σ : Store) (L : SpatialLayout) (cs : List Constraint) :
    SpatialLayout :=
  cs.foldl (fun Lacc c => addConstraint σ Lacc c) L

/-- `updateConstraints` (lines 367-380).  `none` models `cs[0]` raising
`IndexError` on an empty list and the two `assert` statements failing. -/
def updateConstraints (σ : Store) (L : SpatialLayout) (cs : List Constraint) :
    Option SpatialLayout :=
  match cs.head? with
  | none => none
  | some c0 =>
      if 0 ≤ c0.tag_id then
        if ∀ c ∈ cs, c.tag_id = c0.tag_id then
          some (markStateChanged σ
            { L with constraints :=
                (L.constraints.filter fun c => decide (c.tag_id ≠ c0.tag_id))
                  ++ cs })
        else none
      else none

end SpatialLayout

/-! ## `initialiseState` (spatial_layout.py lines 187-307) -/

namespace SpatialLayout

/-- The score expression of the ordering phase (lines 197-203):
`sum([len(list(set(c.masses()).intersection(self._masses))) == 1
for c in self._constraints])`.  Note that the comprehension body never
mentions the candidate mass, so every mass receives this same score. -/
def orderingScore (cs : List Constraint) (ms : List ℕ) : ℕ :=
  (cs.filter fun c =>
    decide ((c.masses.dedup.filter fun i => decide (i ∈ ms)).length = 1)).length

/-- Python `min` of a list of naturals (used on a non-empty list). -/
def pyMin (l : List ℕ) : ℕ := (l.min?).getD 0

/-- Python `scores.index(min(scores))`: first index attaining the minimum. -/
def pyMinIndex (l : List ℕ) : ℕ := l.indexOf (pyMin l)

/-- The ordering phase of `initialiseState` (lines 192-219): repeatedly
"place" the mass at the index of the minimal score, then move every
constraint with no unplaced participant to the placed list.  `none` models
both a non-terminating `while` (fuel exhaustion) and `min([])` raising
`ValueError` when masses run out before constraints. -/
def initialiseOrdering (σ : Store) :
    ℕ → List Constraint → List ℕ → List ℕ → List Constraint →
    Option (List ℕ × List Constraint)
  | 0, _, _, _, _ => none
  | _ + 1, [], [], ms_out, cs_out => some (ms_out, cs_out)
  | _ + 1, _ :: _, [], _, _ => none
  | fuel + 1, cs, m0 :: mrest, ms_out, cs_out =>
      let ms := m0 :: mrest
      let scores := ms.map fun _ => orderingScore cs ms
      let m_best := ms.getD (pyMinIndex scores) 0
      let ms1 := ms.erase m_best
      let c_placed := cs.filter fun c =>
        decide ((c.masses.dedup.filter fun i => decide (i ∈ ms1)).length = 0)
      let cs1 := cs.filter fun c =>
        !(decide ((c.masses.dedup.filter fun i => decide (i ∈ ms1)).length = 0))
      initialiseOrdering σ fuel cs1 ms1 (ms_out ++ [m_best])
        (cs_out ++ c_placed)

/-- Merge one group of placement suggestions sharing a reference-mass name
(lines 242-256): weighted mean of radii, circular weighted mean of angles. -/
def mergeGroup (g : List Constraint.Suggestion) :
    Option Constraint.Suggestion :=
  match g with
  | [] => none
  | g0 :: _ =>
      let rs := g.filterMap fun p => p.r
      let ths := g.filterMap fun p => p.th
      some { mass := g0.mass,
             r := match rs with
               | [] => none
               | _ => some ((rs.map fun p => p.1 * p.2).sum /
                   (rs.map fun p => p.2).sum, (rs.map fun p => p.2).sum),
             th := match ths with
               | [] => none
               | _ => some (arctan2 ((ths.map fun p => Real.sin p.1 * p.2).sum)
                   ((ths.map fun p => Real.cos p.1 * p.2).sum),
                   (ths.map fun p => p.2).sum) }

/-- The sort key of line 261, `('r' in x and 'th' in x, 'th' in x)`, encoded
as a natural number so that Python's lexicographic tuple comparison (with
`False < True`) is numeric comparison. -/
def sugKeyNat (p : Constraint.Suggestion) : ℕ :=
  2 * (cond (p.r.isSome && p.th.isSome) 1 0) + cond p.th.isSome 1 0

/-- State threaded by the placement phase: the store plus the
`self._masses`, `self._constraints` and local `cs` lists. -/
structure PlaceState where
  store : Store
  masses : List ℕ
  constraints : List Constraint
  cs : List Constraint

/-- One iteration of the placement loop of `initialiseState`
(lines 224-307) for mass `m`. -/
def placeMassStep (st : PlaceState) (m : ℕ) : PlaceState :=
  let complete : Constraint → Bool := fun c =>
    c.masses.all fun i => decide (i ∈ st.masses ++ [m])
  let cs_complete := st.cs.filter complete
  let ps := (cs_complete.map fun c =>
    Constraint.placementSuggestion st.store c m).filterMap id
  let sorted := ps.mergeSort fun p q =>
    decide ((st.store p.mass).name ≤ (st.store q.mass).name)
  let groups := sorted.splitBy fun p q =>
    (st.store p.mass).name == (st.store q.mass).name
  let ps_merged := groups.filterMap mergeGroup
  let ps_sorted := ps_merged.mergeSort fun p q =>
    decide (sugKeyNat p ≤ sugKeyNat q)
  let pw := ps_sorted.foldl
    (fun (pw : Vec2 × ℝ) p =>
      let placement := pw.1
      let weight := pw.2
      match p.r, p.th with
      | some r, some th =>
          let suggested := (st.store p.mass).pos +
            (r.1 * Real.cos th.1, r.1 * Real.sin th.1)
          let w := r.2 + th.2
          (vdiv (smul2 weight placement + smul2 w suggested) (weight + w),
            weight + w)
      | none, some th =>
          let uvv : Vec2 := (Real.cos th.1, Real.sin th.1)
          let rr := (placement - (st.store p.mass).pos).1 * uvv.1 +
            (placement - (st.store p.mass).pos).2 * uvv.2
          let suggested := (st.store p.mass).pos +
            smul2 (if rr < 1 ∨ weight = 0 then 1 else rr) uvv
          let w := th.2
          (vdiv (smul2 weight placement + smul2 w suggested) (weight + w),
            weight + w)
      | some r, none =>
          let diff := placement - (st.store p.mass).pos
          let uvv : Vec2 := if weight = 0 then (1, 0)
            else vdiv diff (Real.sqrt (diff.1 ^ 2 + diff.2 ^ 2))
          let suggested := (st.store p.mass).pos + smul2 r.1 uvv
          let w := r.2
          (vdiv (smul2 weight placement + smul2 w suggested) (weight + w),
            weight + w)
      | none, none => pw)
    ((0, 0), 0)
  { store := st.store.set m { st.store m with pos := pw.1 },
    masses := st.masses ++ [m],
    constraints := st.constraints ++ cs_complete,
    cs := st.cs.filter fun c => !complete c }

/-- `initialiseState` (lines 187-307): ordering phase, then placement phase.
After the ordering phase the layout's own mass and constraint lists are
empty; the placement loop rebuilds them. -/
def initialiseState (σ : Store) (L : SpatialLayout) (fuel : ℕ) :
    Option (Store × SpatialLayout) :=
  match initialiseOrdering σ fuel L.constraints L.masses [] [] with
  | none => none
  | some (ms, cs) =>
      let final := ms.foldl placeMassStep ⟨σ, [], [], cs⟩
      some (final.store,
        { L with masses := final.masses, constraints := final.constraints })

end SpatialLayout

/-! ## Observable behaviour of `markStateChanged` -/

namespace SpatialLayout

theorem markStateChanged_constraints (σ : Store) (L : SpatialLayout)
    (b r : Bool) :
    (markStateChanged σ L b r).constraints = L.constraints := by
  cases hr : r <;> cases hlog : L.energy_log <;> cases hh : L.has_hook <;>
    simp [markStateChanged, logEnergy, resetEnergyLog, hlog, hh]

theorem markStateChanged_masses (σ : Store) (L : SpatialLayout) (b r : Bool) :
    (markStateChanged σ L b r).masses = L.masses := by
  cases hr : r <;> cases hlog : L.energy_log <;> cases hh : L.has_hook <;>
    simp [markStateChanged, logEnergy, resetEnergyLog, hlog, hh]

theorem markStateChanged_system_changed (σ : Store) (L : SpatialLayout)
    (b r : Bool) :
    (markStateChanged σ L b r).system_changed = b := by
  cases hr : r <;> cases hlog : L.energy_log <;> cases hh : L.has_hook <;>
    simp [markStateChanged, logEnergy, resetEnergyLog, hlog, hh]

/-! ## Claim C5: `updateConstraints` replaces exactly the tagged group -/

/-- C5: for a non-empty `cs` whose members all carry the same tag id
`t ≥ 0`, `updateConstraints cs` succeeds, the resulting constraint list is
the previous constraints whose tag differs from `t` (in their original
order) followed by `cs`, every constraint with a different tag is preserved,
the masses are untouched, and the system-changed flag is set. -/
theorem updateConstraints_replaces_tag (σ : Store) (L : SpatialLayout)
    (cs : List Constraint) (t : ℤ) (hne : cs ≠ [])
    (ht : 0 ≤ t) (htag : ∀ c ∈ cs, c.tag_id = t) :
    ∃ L', updateConstraints σ L cs = some L' ∧
      L'.constraints =
        (L.constraints.filter fun c => decide (c.tag_id ≠ t)) ++ cs ∧
      (∀ c ∈ L.constraints, c.tag_id ≠ t → c ∈ L'.constraints) ∧
      L'.masses = L.masses ∧
      L'.system_changed = true := by
  obtain ⟨c0, cs', rfl⟩ : ∃ c0 cs', cs = c0 :: cs' := by
    cases cs with
    | nil => exact absurd rfl hne
    | cons c0 cs' => exact ⟨c0, cs', rfl⟩
  have ht0 : c0.tag_id = t := htag c0 (by simp)
  subst ht0
  refine ⟨markStateChanged σ
      { L with constraints :=
          (L.constraints.filter fun c => decide (c.tag_id ≠ c0.tag_id)) ++
            (c0 :: cs') },
    ?_, ?_, ?_, ?_, ?_⟩
  · unfold updateConstraints
    simp only [List.head?_cons]
    rw [if_pos ht, if_pos htag]
  · rw [markStateChanged_constraints]
  · intro c hc hct
    rw [markStateChanged_constraints]
    exact List.mem_append_left _ (List.mem_filter.mpr ⟨hc, by simpa using hct⟩)
  · rw [markStateChanged_masses]
  · rw [markStateChanged_system_changed]

def c5Store : Store := fun _ => mkMass "x"

def c5Layout : SpatialLayout :=
  { newLayout false with
      constraints := [Constraint.distance 0 1 1 1 7, Constraint.distance 1 2 1 1 3] }

theorem updateConstraints_replaces_tag_witness :
    ∃ L', SpatialLayout.updateConstraints c5Store c5Layout
        [Constraint.distance 0 2 2 1 7] = some L' ∧
      L'.constraints =
        (c5Layout.constraints.filter fun c => decide (c.tag_id ≠ 7)) ++
          [Constraint.distance 0 2 2 1 7] ∧
      (∀ c ∈ c5Layout.constraints, c.tag_id ≠ 7 → c ∈ L'.constraints) ∧
      L'.masses = c5Layout.masses ∧
      L'.system_changed = true :=
  updateConstraints_replaces_tag c5Store c5Layout _ 7 (by simp)
    (by norm_num) (by simp [Constraint.tag_id])

end SpatialLayout

/-! ## Claim C6: mass identity in `addMass` -/

namespace SpatialLayout

/-- Store with two distinct mass objects (identifiers 0 and 1) sharing the
name "a". -/
def c6Store : Store := fun i => if i = 0 then mkMass "a" else mkMass "a" (1, 1)

/-- C6 counterexample: `addMass` deduplicates by object identity only, so
adding a distinct mass object whose name is already present yields a layout
owning two masses with the same name. -/
theorem addMass_duplicate_name_counterexample :
    (0 : ℕ) ≠ 1 ∧ (c6Store 0).name = (c6Store 1).name ∧
    (addMass c6Store (addMass c6Store (newLayout false) 0) 1).masses
      = [0, 1] ∧
    ¬ ((addMass c6Store (addMass c6Store (newLayout false) 0) 1).masses.map
        fun i => (c6Store i).name).Nodup := by
  refine ⟨by decide, rfl, rfl, ?_⟩
  intro h
  rw [show (addMass c6Store (addMass c6Store (newLayout false) 0) 1).masses
      = [0, 1] from rfl] at h
  simp [c6Store, mkMass] at h

/-- C6 (amended): `addMass m` leaves the mass list unchanged when `m` is
already owned (object identity) and appends `m` otherwise; consequently
name-uniqueness is preserved by `addMass` only when `m` is already owned or
its name is absent — a distinct object with a duplicate name is inserted as
a second mass of that name. -/
theorem addMass_identity (σ : Store) (L : SpatialLayout) (m : ℕ) :
    ((addMass σ L m).masses =
      if m ∈ L.masses then L.masses else L.masses ++ [m]) ∧
    ((L.masses.map fun i => (σ i).name).Nodup →
      (m ∈ L.masses ∨ ∀ i ∈ L.masses, (σ i).name ≠ (σ m).name) →
      ((addMass σ L m).masses.map fun i => (σ i).name).Nodup) := by
  constructor
  · unfold addMass
    split_ifs with h
    · rfl
    · rw [markStateChanged_masses]
  · intro hnodup hcases
    unfold addMass
    split_ifs with h
    · exact hnodup
    · rw [markStateChanged_masses]
      have hfresh : ∀ i ∈ L.masses, (σ i).name ≠ (σ m).name :=
        hcases.resolve_left h
      rw [List.map_append, List.nodup_append]
      refine ⟨hnodup, by simp, ?_⟩
      intro x hx hx2
      simp only [List.map_cons, List.map_nil, List.mem_singleton] at hx2
      obtain ⟨i, hi, rfl⟩ := List.mem_map.mp hx
      exact hfresh i hi hx2

/-- Store with mass objects 0 and 1 named "a" and "b". -/
def c6WStore : Store := fun i => if i = 0 then mkMass "a" else mkMass "b"

theorem addMass_identity_witness :
    ((addMass c6WStore { newLayout false with masses := [0] } 1).masses =
      if 1 ∈ [0] then [0] else [0] ++ [1]) ∧
    (((addMass c6WStore { newLayout false with masses := [0] } 1).masses.map
        fun i => (c6WStore i).name).Nodup) := by
  refine ⟨(addMass_identity c6WStore { newLayout false with masses := [0] } 1).1, ?_⟩
  apply (addMass_identity c6WStore { newLayout false with masses := [0] } 1).2
  · simp
  · refine Or.inr ?_
    intro i hi
    simp only [List.mem_singleton] at hi
    subst hi
    simp [c6WStore, mkMass]

end SpatialLayout

/-! ## Claim C3: constraint-ownership invariant -/

/-- Every mass referenced by any constraint held by the layout is owned by
the layout. -/
def constraintMassesOwned (L : SpatialLayout) : Prop :=
  ∀ c ∈ L.constraints, ∀ i ∈ c.masses, i ∈ L.masses

namespace SpatialLayout

theorem addMass_constraints_eq (σ : Store) (L : SpatialLayout) (m : ℕ) :
    (addMass σ L m).constraints = L.constraints := by
  unfold addMass
  split_ifs with h
  · rfl
  · rw [markStateChanged_constraints]

theorem addMass_masses_mono (σ : Store) (L : SpatialLayout) (m : ℕ) :
    ∀ i ∈ L.masses, i ∈ (addMass σ L m).masses := by
  intro i hi
  unfold addMass
  split_ifs with h
  · exact hi
  · rw [markStateChanged_masses]
    exact List.mem_append_left _ hi

theorem addMass_mem_self (σ : Store) (L : SpatialLayout) (m : ℕ) :
    m ∈ (addMass σ L m).masses := by
  unfold addMass
  split_ifs with h
  · exact h
  · rw [markStateChanged_masses]
    exact List.mem_append_right _ (by simp)

theorem foldl_addMass_constraints (σ : Store) (ms : List ℕ)
    (L : SpatialLayout) :
    (ms.foldl (fun Lacc m => addMass σ Lacc m) L).constraints =
      L.constraints := by
  induction ms generalizing L with
  | nil => rfl
  | cons m ms ih => rw [List.foldl_cons, ih, addMass_constraints_eq]

theorem foldl_addMass_masses_mono (σ : Store) (ms : List ℕ)
    (L : SpatialLayout) :
    ∀ i ∈ L.masses, i ∈ (ms.foldl (fun Lacc m => addMass σ Lacc m) L).masses := by
  induction ms generalizing L with
  | nil => intro i hi; exact hi
  | cons m ms ih =>
      intro i hi
      rw [List.foldl_cons]
      exact ih _ i (addMass_masses_mono σ L m i hi)

theorem foldl_addMass_mem (σ : Store) (ms : List ℕ) (L : SpatialLayout) :
    ∀ i ∈ ms, i ∈ (ms.foldl (fun Lacc m => addMass σ Lacc m) L).masses := by
  induction ms generalizing L with
  | nil => intro i hi; cases hi
  | cons m ms ih =>
      intro i hi
      rw [List.foldl_cons]
      rcases List.mem_cons.mp hi with rfl | hi
      · exact foldl_addMass_masses_mono σ ms _ i (addMass_mem_self σ L i)
      · exact ih _ i hi

end SpatialLayout

namespace SpatialLayout

/-- The rebinding loop resolves every participant slot by name against the
layout: slots whose original mass's name is owned become the owned
identifier, the others are untouched. -/
theorem rebindConstraint_masses (σ : Store) (L : SpatialLayout)
    (c : Constraint) :
    (rebindConstraint σ L c).masses =
      c.masses.map fun i => (getMass σ L (σ i).name).getD i := by
  cases c with
  | distance a b l k t =>
      cases hga : getMass σ L (σ a).name <;>
        cases hgb : getMass σ L (σ b).name <;>
          simp [rebindConstraint, Constraint.masses, Constraint.setSlot,
            List.enum, List.enumFrom, hga, hgb]
  | angleGlobal a b l k t =>
      cases hga : getMass σ L (σ a).name <;>
        cases hgb : getMass σ L (σ b).name <;>
          simp [rebindConstraint, Constraint.masses, Constraint.setSlot,
            List.enum, List.enumFrom, hga, hgb]
  | angleLocal a b c l k t =>
      cases hga : getMass σ L (σ a).name <;>
        cases hgb : getMass σ L (σ b).name <;>
          cases hgc : getMass σ L (σ c).name <;>
            simp [rebindConstraint, Constraint.masses, Constraint.setSlot,
              List.enum, List.enumFrom, hga, hgb, hgc]

theorem constraintMassesOwned_markStateChanged (σ : Store) (L : SpatialLayout)
    (b r : Bool) :
    constraintMassesOwned (markStateChanged σ L b r) ↔
      constraintMassesOwned L := by
  unfold constraintMassesOwned
  rw [markStateChanged_constraints, markStateChanged_masses]

/-- C3: every constraint held by the layout references only owned masses.
`addConstraint` establishes this for the constraint it appends (after
rebinding each participant slot whose name is already owned to the owned
instance — the first conjunct characterises the rebinding) and preserves it
for the rest; `addMass` preserves it; `updateConstraints` preserves it
provided every mass referenced by the appended constraints is already owned
(without that proviso it can break the invariant, see the
counterexample). -/
theorem layout_ownership_invariant :
    (∀ (σ : Store) (L : SpatialLayout) (c : Constraint),
      (rebindConstraint σ L c).masses =
        c.masses.map fun i => (getMass σ L (σ i).name).getD i) ∧
    (∀ (σ : Store) (L : SpatialLayout) (c : Constraint),
      constraintMassesOwned L →
        constraintMassesOwned (addConstraint σ L c)) ∧
    (∀ (σ : Store) (L : SpatialLayout) (m : ℕ),
      constraintMassesOwned L → constraintMassesOwned (addMass σ L m)) ∧
    (∀ (σ : Store) (L : SpatialLayout) (cs : List Constraint)
        (L' : SpatialLayout),
      constraintMassesOwned L →
      (∀ c ∈ cs, ∀ i ∈ c.masses, i ∈ L.masses) →
      updateConstraints σ L cs = some L' → constraintMassesOwned L') := by
  refine ⟨rebindConstraint_masses, ?_, ?_, ?_⟩
  · intro σ L c hinv
    unfold addConstraint
    rw [constraintMassesOwned_markStateChanged]
    intro c' hc' i hi
    simp only [List.mem_append, List.mem_singleton] at hc'
    rw [foldl_addMass_constraints] at hc'
    rcases hc' with hc' | rfl
    · exact foldl_addMass_masses_mono σ _ L i (hinv c' hc' i hi)
    · exact foldl_addMass_mem σ _ L i hi
  · intro σ L m hinv c hc i hi
    rw [addMass_constraints_eq] at hc
    exact addMass_masses_mono σ L m i (hinv c hc i hi)
  · intro σ L cs L' hinv hcs h
    unfold updateConstraints at h
    cases hcs0 : cs.head? with
    | none => rw [hcs0] at h; cases h
    | some c0 =>
        rw [hcs0] at h
        dsimp only at h
        split_ifs at h with h1 h2
        injection h with h
        subst h
        rw [constraintMassesOwned_markStateChanged]
        intro c hc i hi
        simp only [List.mem_append] at hc
        rcases hc with hc | hc
        · exact hinv c (List.mem_filter.mp hc).1 i hi
        · exact hcs c hc i hi

def c3WStore : Store :=
  fun i => if i = 0 then mkMass "a" else
    if i = 1 then mkMass "a" (2, 2) else mkMass "b" (3, 3)

def c3WLayout : SpatialLayout := { newLayout false with masses := [0] }

theorem layout_ownership_invariant_witness :
    constraintMassesOwned
      (addConstraint c3WStore c3WLayout (Constraint.distance 1 2 1 1 (-1))) := by
  apply layout_ownership_invariant.2.1
  intro c hc
  rw [show c3WLayout.constraints = [] from rfl] at hc
  cases hc

/-- C3 counterexample: `updateConstraints` appends its argument constraints
without rebinding or adding their masses, so a constraint referencing
unowned masses breaks the ownership invariant. -/
theorem updateConstraints_ownership_counterexample :
    constraintMassesOwned (newLayout false) ∧
    ∃ L', updateConstraints c5Store (newLayout false)
        [Constraint.distance 5 6 1 1 3] = some L' ∧
      L'.constraints = [Constraint.distance 5 6 1 1 3] ∧
      L'.masses = [] ∧ ¬ constraintMassesOwned L' := by
  constructor
  · intro c hc
    rw [show (newLayout false).constraints = [] from rfl] at hc
    cases hc
  · refine ⟨_, rfl, ?_, ?_, ?_⟩
    · rw [markStateChanged_constraints]
      rfl
    · rw [markStateChanged_masses]
      rfl
    · intro h
      have h5 := h (Constraint.distance 5 6 1 1 3)
        (by rw [markStateChanged_constraints]; simp) 5
        (by simp [Constraint.masses])
      rw [markStateChanged_masses] at h5
      cases h5

end SpatialLayout

/-! ## Integrator and step driver (spatial_layout.py lines 31-49, 73-147,
326-349) -/

/-- numpy elementwise addition of phase vectors. -/
def vadd (u v : List ℝ) : List ℝ := List.zipWith (· + ·) u v

/-- numpy scalar-times-vector. -/
def vsmul (c : ℝ) (v : List ℝ) : List ℝ := v.map fun x => c * x

/-- numpy elementwise subtraction. -/
def vsub (u v : List ℝ) : List ℝ := List.zipWith (· - ·) u v

/-- `RungeKutta45.integrate` (lines 42-49).  The derivative callback `f`
mutates the layout's masses, so it threads the store; `integrate` returns
the final store, the updated `self.y`, and the updated `self.t` (which the
source sets to the argument `t_new`). -/
def RungeKutta45.integrate (f : ℝ → List ℝ → Store → Store × List ℝ)
    (σ : Store) (t : ℝ) (y : List ℝ) (t_new : ℝ) :
    Store × List ℝ × ℝ :=
  let r1 := f t y σ
  let k1 := r1.2
  let r2 := f t (vadd y (vsmul (INTEGRATION_DT * 0.5) k1)) r1.1
  let k2 := r2.2
  let r3 := f t (vadd y (vsmul (INTEGRATION_DT * 0.5) k2)) r2.1
  let k3 := r3.2
  let r4 := f t (vadd y (vsmul INTEGRATION_DT k3)) r3.1
  let k4 := r4.2
  (r4.1,
    vadd y (vsmul INTEGRATION_DT (vsmul (1 / 6)
      (vadd (vadd (vadd k1 (vsmul 2 k2)) (vsmul 2 k3)) k4))),
    t_new)

namespace SpatialLayout

/-- `_pullState` (lines 73-76). -/
def pullState (σ : Store) (L : SpatialLayout) : List ℝ :=
  L.masses.flatMap fun i =>
    [(σ i).pos.1, (σ i).pos.2, (σ i).vel.1, (σ i).vel.2]

/-- `_pushState` (lines 78-83): `m.pos = y[4i:4i+2]; m.vel = y[4i+2:4i+4]`. -/
def pushState (σ : Store) (L : SpatialLayout) (y : List ℝ) : Store :=
  L.masses.enum.foldl
    (fun σacc p =>
      σacc.set p.2
        { σacc p.2 with
            pos := (y.getD (4 * p.1) 0, y.getD (4 * p.1 + 1) 0),
            vel := (y.getD (4 * p.1 + 2) 0, y.getD (4 * p.1 + 3) 0) })
    σ

/-- `_refreshForces` (lines 96-103): zero every acceleration, apply friction
to every mass, then apply every constraint force. -/
def refreshForces (σ : Store) (L : SpatialLayout) : Store :=
  let σ1 := L.masses.foldl
    (fun σacc i => σacc.set i ({ σacc i with acc := (0, 0) }).applyFriction) σ
  L.constraints.foldl (fun σacc c => c.applyForce σacc) σ1

/-- `_stateDerivative` (lines 105-110). -/
def stateDerivative (L : SpatialLayout) (_t : ℝ) (y : List ℝ) (σ : Store) :
    Store × List ℝ :=
  let σ1 := pushState σ L y
  let σ2 := refreshForces σ1 L
  (σ2, L.masses.flatMap fun i =>
    [(σ2 i).vel.1, (σ2 i).vel.2, (σ2 i).acc.1, (σ2 i).acc.2])

/-- `_stepSafely` (lines 112-147), with explicit fuel for the `while` loop.
The returned `Bool` is the accumulated `_bounced_last_step` flag; `none`
models fuel exhaustion or `_firstCircleIntersect` raising. -/
def stepSafely (L : SpatialLayout) :
    ℕ → Store → ℕ → Vec2 → Bool → Option (Store × Bool)
  | 0, _, _, _, _ => none
  | fuel + 1, σ, mass, step, bounced =>
      let m_desired_pos := (σ mass).pos + step
      match L.masses.find? (fun m => decide (m ≠ mass) &&
          decide (pdistance m_desired_pos (σ m).pos < SAFE_DISTANCE)) with
      | none =>
          some (σ.set mass { σ mass with pos := (σ mass).pos + step }, bounced)
      | some m_unsafe =>
          match firstCircleIntersect (σ mass).pos m_desired_pos
              (σ m_unsafe).pos SAFE_DISTANCE with
          | none => none
          | some intersect =>
              let bounce_direction_m :=
                reflectedDirection (σ mass).pos intersect (σ m_unsafe).pos
              let bounce_direction_mu :=
                reflectedDirection (σ m_unsafe).pos intersect (σ mass).pos
              let bounced_position :=
                reflectedPosition (σ mass).pos step intersect
                  bounce_direction_m
              let σ1 := σ.set mass { σ mass with
                vel := rotateVectorTo (σ mass).vel bounce_direction_m }
              let σ2 := σ1.set m_unsafe { σ1 m_unsafe with
                vel := rotateVectorTo (σ1 m_unsafe).vel bounce_direction_mu }
              let σ3 := σ2.set mass { σ2 mass with pos := intersect }
              stepSafely L fuel σ3 mass (bounced_position - intersect) true

/-- `_pushStateSafely` (lines 85-94): reinstall the old state, install every
velocity from the new state, then apply each mass's positional delta through
`_stepSafely` in insertion order.  Returns the final store and the
`_bounced_last_step` flag (reset to `False` on entry). -/
def pushStateSafely (σ : Store) (L : SpatialLayout) (y_a y_b : List ℝ)
    (fuel : ℕ) : Option (Store × Bool) :=
  let σ0 := pushState σ L y_a
  let y_delta := vsub y_b y_a
  let σ1 := L.masses.enum.foldl
    (fun σacc p =>
      σacc.set p.2 { σacc p.2 with
        vel := (y_b.getD (4 * p.1 + 2) 0, y_b.getD (4 * p.1 + 3) 0) }) σ0
  L.masses.enum.foldlM
    (fun (st : Store × Bool) p =>
      stepSafely L fuel st.1 p.2
        (y_delta.getD (4 * p.1) 0, y_delta.getD (4 * p.1 + 1) 0) st.2)
    (σ1, false)

/-- `step` (lines 326-349): re-seed the integrator if the system changed,
integrate one RK4 step, apply the new state safely, and mark the state
changed with the bounce flag. -/
def step (st : Store × SpatialLayout) (fuel : ℕ) :
    Option (Store × SpatialLayout) :=
  let σ := st.1
  let L := st.2
  let L1 := if L.system_changed then
      { L with ode_y := pullState σ L, system_changed := false } else L
  let state := L1.ode_y
  let r := RungeKutta45.integrate (stateDerivative L1) σ L1.ode_t state
    (L1.ode_t + INTEGRATION_DT)
  let L2 := { L1 with ode_y := r.2.1, ode_t := r.2.2 }
  match pushStateSafely r.1 L2 state r.2.1 fuel with
  | none => none
  | some (σ2, bounced) =>
      let L3 := { L2 with bounced_last_step := bounced }
      some (σ2, markStateChanged σ2 L3 bounced false)

end SpatialLayout

/-! ## Claim C8: the integrator performs one classical RK4 step -/

/-- Modelled from the spec (§4.E): one classical fixed-step RK4 update with
`Δt = INTEGRATION_DT`, every derivative evaluation taken at time `t`:
`k₁ = f(t, y)`, `k₂ = f(t, y + ½Δt·k₁)`, `k₃ = f(t, y + ½Δt·k₂)`,
`k₄ = f(t, y + Δt·k₃)`, `y ← y + (Δt/6)(k₁ + 2k₂ + 2k₃ + k₄)`,
`t ← t + Δt`. -/
def rk4SpecStep (f : ℝ → List ℝ → Store → Store × List ℝ)
    (σ : Store) (t : ℝ) (y : List ℝ) : Store × List ℝ × ℝ :=
  let r1 := f t y σ
  let k1 := r1.2
  let r2 := f t (vadd y (vsmul (INTEGRATION_DT / 2) k1)) r1.1
  let k2 := r2.2
  let r3 := f t (vadd y (vsmul (INTEGRATION_DT / 2) k2)) r2.1
  let k3 := r3.2
  let r4 := f t (vadd y (vsmul INTEGRATION_DT k3)) r3.1
  let k4 := r4.2
  (r4.1,
    vadd y (vsmul (INTEGRATION_DT / 6)
      (vadd (vadd (vadd k1 (vsmul 2 k2)) (vsmul 2 k3)) k4)),
    t + INTEGRATION_DT)

theorem vsmul_vsmul (a b : ℝ) (v : List ℝ) :
    vsmul a (vsmul b v) = vsmul (a * b) v := by
  simp only [vsmul, List.map_map]
  refine List.map_congr_left ?_
  intro x _
  simp [Function.comp]
  ring

/-- C8: `integrate`, called as the step driver calls it (with
`t_new = t + Δt`), performs exactly one classical RK4 step with `Δt = 0.1`:
it computes `k₁ = f(t, y)`, `k₂ = f(t, y + ½Δt·k₁)`, `k₃ = f(t, y + ½Δt·k₂)`
and `k₄ = f(t, y + Δt·k₃)` — all four derivative evaluations at time `t` —
then returns `y + (Δt/6)(k₁ + 2k₂ + 2k₃ + k₄)` and sets `t` to `t + Δt`. -/
theorem integrate_is_classical_rk4
    (f : ℝ → List ℝ → Store → Store × List ℝ) (σ : Store) (t : ℝ)
    (y : List ℝ) :
    RungeKutta45.integrate f σ t y (t + INTEGRATION_DT) =
      rk4SpecStep f σ t y := by
  have hhalf : INTEGRATION_DT * 0.5 = INTEGRATION_DT / 2 := by
    norm_num [INTEGRATION_DT]
  have hsixth : ∀ v : List ℝ,
      vsmul INTEGRATION_DT (vsmul (1 / 6) v) = vsmul (INTEGRATION_DT / 6) v := by
    intro v
    rw [vsmul_vsmul, show INTEGRATION_DT * (1 / 6) = INTEGRATION_DT / 6 by ring]
  simp only [RungeKutta45.integrate, rk4SpecStep, hhalf, hsixth]

/-! ## Claim C10: `initialiseState` never invokes `markStateChanged` -/

/-- C10: a successful `initialiseState` leaves the system-changed flag, the
energy log, the observer hook (both its presence and its invocation count),
the bounce flag and the integrator state (`ode_y`, `ode_t`) exactly as they
were: it only rewrites the mass and constraint lists and the mass positions,
so a subsequent `step()` re-seeds the integrator from the newly computed
seed positions only if some other operation set the system-changed flag. -/
theorem initialiseState_preserves_observables (σ : Store) (L : SpatialLayout)
    (fuel : ℕ) (σ2 : Store) (L2 : SpatialLayout)
    (h : SpatialLayout.initialiseState σ L fuel = some (σ2, L2)) :
    L2.system_changed = L.system_changed ∧
    L2.energy_log = L.energy_log ∧
    L2.has_hook = L.has_hook ∧
    L2.hook_runs = L.hook_runs ∧
    L2.bounced_last_step = L.bounced_last_step ∧
    L2.ode_y = L.ode_y ∧
    L2.ode_t = L.ode_t := by
  unfold SpatialLayout.initialiseState at h
  cases hord : SpatialLayout.initialiseOrdering σ fuel L.constraints
      L.masses [] [] with
  | none => rw [hord] at h; cases h
  | some p =>
      obtain ⟨ms, cs⟩ := p
      rw [hord] at h
      dsimp only at h
      rw [Option.some_inj, Prod.mk.injEq] at h
      obtain ⟨-, h2⟩ := h
      subst h2
      simp

def c10Store : Store := fun _ => mkMass "x"

theorem initialiseState_preserves_observables_witness :
    ∃ σ2 L2, SpatialLayout.initialiseState c10Store
        (SpatialLayout.newLayout false) 1 = some (σ2, L2) ∧
      L2.system_changed = (SpatialLayout.newLayout false).system_changed ∧
      L2.energy_log = (SpatialLayout.newLayout false).energy_log ∧
      L2.has_hook = (SpatialLayout.newLayout false).has_hook ∧
      L2.hook_runs = (SpatialLayout.newLayout false).hook_runs ∧
      L2.bounced_last_step = (SpatialLayout.newLayout false).bounced_last_step ∧
      L2.ode_y = (SpatialLayout.newLayout false).ode_y ∧
      L2.ode_t = (SpatialLayout.newLayout false).ode_t :=
  ⟨_, _, rfl, initialiseState_preserves_observables c10Store
    (SpatialLayout.newLayout false) 1 _ _ rfl⟩

/-! ## Claim C1: the safe-distance barrier -/

theorem Store.get_set_same (σ : Store) (i : ℕ) (d : MassData) :
    (σ.set i d) i = d := by
  simp [Store.set]

theorem Store.get_set_ne (σ : Store) {i j : ℕ} (d : MassData) (h : j ≠ i) :
    (σ.set i d) j = σ j := by
  simp [Store.set, h]

theorem pdistance_comm (a b : Vec2) : pdistance a b = pdistance b a := by
  simp only [pdistance, Prod.fst_sub, Prod.snd_sub]
  congr 1
  ring

namespace SpatialLayout

/-- `_stepSafely`, when it terminates, moves only the stepped mass, and its
committed position is at least `SAFE_DISTANCE` away from every other mass's
current position (the loop exits only when no clash remains). -/
theorem stepSafely_spec (L : SpatialLayout) :
    ∀ (fuel : ℕ) (σ : Store) (mass : ℕ) (step : Vec2) (b : Bool)
      (res : Store × Bool),
    stepSafely L fuel σ mass step b = some res →
    (∀ j, j ≠ mass → (res.1 j).pos = (σ j).pos) ∧
    (∀ j ∈ L.masses, j ≠ mass →
      SAFE_DISTANCE ≤ pdistance (res.1 mass).pos (res.1 j).pos) := by
  intro fuel
  induction fuel with
  | zero => intro σ mass step b res h; cases h
  | succ n ih =>
      intro σ mass step b res h
      rw [stepSafely] at h
      dsimp only at h
      cases hf : L.masses.find? (fun m => decide (m ≠ mass) &&
          decide (pdistance ((σ mass).pos + step) (σ m).pos < SAFE_DISTANCE)) with
      | none =>
          rw [hf] at h
          dsimp only at h
          rw [Option.some_inj] at h
          subst h
          constructor
          · intro j hj
            dsimp only
            rw [Store.get_set_ne _ _ hj]
          · intro j hj hjm
            dsimp only
            rw [Store.get_set_same, Store.get_set_ne _ _ hjm]
            have hnone := List.find?_eq_none.mp hf j hj
            simp only [Bool.and_eq_true, decide_eq_true_eq, not_and] at hnone
            exact not_lt.mp (hnone hjm)
      | some mu =>
          rw [hf] at h
          dsimp only at h
          have hmu : mu ≠ mass := by
            have hp := List.find?_some hf
            simp only [Bool.and_eq_true, decide_eq_true_eq] at hp
            exact hp.1
          cases hfc : firstCircleIntersect (σ mass).pos ((σ mass).pos + step)
              (σ mu).pos SAFE_DISTANCE with
          | none => rw [hfc] at h; cases h
          | some its =>
              rw [hfc] at h
              dsimp only at h
              obtain ⟨h1, h2⟩ := ih _ _ _ _ _ h
              constructor
              · intro j hj
                rw [h1 j hj, Store.get_set_ne _ _ hj]
                by_cases hjmu : j = mu
                · subst hjmu
                  rw [Store.get_set_same]
                  dsimp only
                  rw [Store.get_set_ne _ _ hmu]
                · rw [Store.get_set_ne _ _ hjmu, Store.get_set_ne _ _ hj]
              · intro j hj hjm
                exact h2 j hj hjm

/-- The `_pushStateSafely` per-mass loop: afterwards every processed mass is
at least `SAFE_DISTANCE` from every other mass. -/
theorem foldStepSafely_spec (L : SpatialLayout) (fuel : ℕ) (yd : List ℝ) :
    ∀ (l : List (ℕ × ℕ)) (σ0 : Store) (b0 : Bool) (res : Store × Bool),
    (l.map Prod.snd).Nodup →
    (∀ p ∈ l, p.2 ∈ L.masses) →
    l.foldlM
      (fun (st : Store × Bool) p =>
        stepSafely L fuel st.1 p.2
          (yd.getD (4 * p.1) 0, yd.getD (4 * p.1 + 1) 0) st.2)
      (σ0, b0) = some res →
    (∀ j, j ∉ l.map Prod.snd → (res.1 j).pos = (σ0 j).pos) ∧
    (∀ i ∈ l.map Prod.snd, ∀ j ∈ L.masses, j ≠ i →
      SAFE_DISTANCE ≤ pdistance (res.1 i).pos (res.1 j).pos) := by
  intro l
  induction l with
  | nil =>
      intro σ0 b0 res _ _ h
      simp only [List.foldlM_nil, pure, Option.some_inj] at h
      subst h
      exact ⟨fun j _ => rfl, fun i hi => absurd hi (by simp)⟩
  | cons p l ih =>
      intro σ0 b0 res hnd hmem h
      rw [List.foldlM_cons] at h
      cases h1 : stepSafely L fuel σ0 p.2
          (yd.getD (4 * p.1) 0, yd.getD (4 * p.1 + 1) 0) b0 with
      | none => rw [h1] at h; cases h
      | some st1 =>
          rw [h1] at h
          simp only [Option.bind_eq_bind, Option.some_bind] at h
          have hspec := stepSafely_spec L fuel σ0 p.2 _ b0 st1 h1
          have hnd' : (l.map Prod.snd).Nodup := by
            simpa using hnd.of_cons
          have hp2 : p.2 ∉ l.map Prod.snd := by
            have := hnd
            simp only [List.map_cons, List.nodup_cons] at this
            exact this.1
          have ihh := ih st1.1 st1.2 res hnd'
            (fun q hq => hmem q (List.mem_cons_of_mem _ hq)) h
          constructor
          · intro j hj
            simp only [List.map_cons, List.mem_cons, not_or] at hj
            rw [ihh.1 j hj.2]
            exact hspec.1 j hj.1
          · intro i hi j hj hji
            simp only [List.map_cons, List.mem_cons] at hi
            rcases hi with rfl | hil
            · by_cases hjl : j ∈ l.map Prod.snd
              · rw [pdistance_comm]
                exact ihh.2 j hjl p.2 (hmem p (List.mem_cons_self p l))
                  (Ne.symm hji)
              · rw [ihh.1 j hjl, ihh.1 p.2 hp2]
                exact hspec.2 j hj hji
            · exact ihh.2 i hil j hj hji

/-- After a completed `_pushStateSafely`, every pair of distinct masses is
separated by at least `SAFE_DISTANCE`. -/
theorem pushStateSafely_separation (σ : Store) (L : SpatialLayout)
    (y_a y_b : List ℝ) (fuel : ℕ) (res : Store × Bool)
    (hnd : L.masses.Nodup)
    (h : pushStateSafely σ L y_a y_b fuel = some res) :
    ∀ i ∈ L.masses, ∀ j ∈ L.masses, i ≠ j →
      SAFE_DISTANCE ≤ pdistance (res.1 i).pos (res.1 j).pos := by
  intro i hi j hj hij
  unfold pushStateSafely at h
  dsimp only at h
  have hh := foldStepSafely_spec L fuel (vsub y_b y_a) L.masses.enum _ false res
    (by rw [List.enum_map_snd]; exact hnd)
    (fun p hp => by
      have hmem : p.2 ∈ L.masses.enum.map Prod.snd := List.mem_map_of_mem _ hp
      rwa [List.enum_map_snd] at hmem) h
  refine hh.2 i ?_ j hj (Ne.symm hij)
  rw [List.enum_map_snd]
  exact hi

theorem markStateChanged_bounced (σ : Store) (L : SpatialLayout) (b r : Bool) :
    (markStateChanged σ L b r).bounced_last_step = L.bounced_last_step := by
  cases hr : r <;> cases hlog : L.energy_log <;> cases hh : L.has_hook <;>
    simp [markStateChanged, logEnergy, resetEnergyLog, hlog, hh]

/-- C1: after any completed `step()`, every pair of distinct masses is
separated by at least `SAFE_DISTANCE` (in the exact-arithmetic model the
barrier holds with no tolerance at all, which implies the claim's
`≥ d_safe − ε` for every round-off bound `ε ≥ 0`). -/
theorem step_safe_separation (σ : Store) (L : SpatialLayout) (fuel : ℕ)
    (σ2 : Store) (L2 : SpatialLayout) (hnd : L.masses.Nodup)
    (h : step (σ, L) fuel = some (σ2, L2)) :
    ∀ i ∈ L.masses, ∀ j ∈ L.masses, i ≠ j →
      SAFE_DISTANCE ≤ pdistance (σ2 i).pos (σ2 j).pos := by
  unfold step at h
  dsimp only at h
  set L1 := if L.system_changed = true then
      { L with ode_y := pullState σ L, system_changed := false } else L
    with hL1
  have hm1 : L1.masses = L.masses := by
    rw [hL1]; split_ifs <;> rfl
  set r := RungeKutta45.integrate (stateDerivative L1) σ L1.ode_t L1.ode_y
    (L1.ode_t + INTEGRATION_DT) with hr
  cases hps : pushStateSafely r.1 { L1 with ode_y := r.2.1, ode_t := r.2.2 }
      L1.ode_y r.2.1 fuel with
  | none => rw [hps] at h; cases h
  | some pr =>
      obtain ⟨σ2', bounced⟩ := pr
      rw [hps] at h
      dsimp only at h
      rw [Option.some_inj, Prod.mk.injEq] at h
      obtain ⟨hσ, -⟩ := h
      subst hσ
      have hsep := pushStateSafely_separation r.1
        { L1 with ode_y := r.2.1, ode_t := r.2.2 } L1.ode_y r.2.1 fuel
        (σ2', bounced) (by simpa [hm1] using hnd) hps
      intro i hi j hj hij
      exact hsep i (by simpa [hm1] using hi) j (by simpa [hm1] using hj) hij

end SpatialLayout

/-! ## Concrete step evaluations (witnesses and counterexample traces) -/

namespace SpatialLayout

/-- For a two-mass layout without constraints, whenever the phase vector
carries zero velocities the state derivative is identically zero (friction
contributes `-μ·0`, fixed masses contribute nothing). -/
theorem twoMass_zero_deriv (L : SpatialLayout) (σ0 : Store) (t : ℝ)
    (y : List ℝ) (hc : L.constraints = []) (hm : L.masses = [0, 1])
    (h2 : y.getD 2 0 = 0) (h3 : y.getD 3 0 = 0)
    (h6 : y.getD 6 0 = 0) (h7 : y.getD 7 0 = 0) :
    (stateDerivative L t y σ0).2 = [0, 0, 0, 0, 0, 0, 0, 0] := by
  have h2' : y[2]?.getD 0 = 0 := by simpa [List.getD] using h2
  have h3' : y[3]?.getD 0 = 0 := by simpa [List.getD] using h3
  have h6' : y[6]?.getD 0 = 0 := by simpa [List.getD] using h6
  have h7' : y[7]?.getD 0 = 0 := by simpa [List.getD] using h7
  cases hf0 : (σ0 0).fixed <;> cases hf1 : (σ0 1).fixed <;>
    simp [stateDerivative, pushState, refreshForces, MassData.applyFriction,
      Store.set, smul2, hc, hm, hf0, hf1, h2', h3', h6', h7',
      FRICTION_COEFFICIENT, List.enum, List.enumFrom]

end SpatialLayout

theorem not_pdistance_lt {a b : Vec2} {s : ℝ}
    (h : s ^ 2 ≤ (a.1 - b.1) ^ 2 + (a.2 - b.2) ^ 2) : ¬ pdistance a b < s := by
  refine not_lt.mpr ?_
  simp only [pdistance, Prod.fst_sub, Prod.snd_sub]
  exact Real.le_sqrt_of_sq_le h

theorem pdistance_lt {a b : Vec2} {s : ℝ} (hs : 0 < s)
    (h : (a.1 - b.1) ^ 2 + (a.2 - b.2) ^ 2 < s ^ 2) : pdistance a b < s := by
  simp only [pdistance, Prod.fst_sub, Prod.snd_sub]
  exact (Real.sqrt_lt' hs).mpr h

namespace SpatialLayout

/-- With no constraints and zero initial velocities, one RK4 step leaves the
phase vector of a two-mass layout unchanged (every stage derivative is
zero). -/
theorem twoMass_integrate_y (L : SpatialLayout) (σ : Store) (t t2 : ℝ)
    (a b cx d : ℝ) (hc : L.constraints = []) (hm : L.masses = [0, 1]) :
    (RungeKutta45.integrate (stateDerivative L) σ t [a, b, 0, 0, cx, d, 0, 0]
      t2).2.1 = [a, b, 0, 0, cx, d, 0, 0] := by
  have hz : ∀ (t' : ℝ) (σ0 : Store),
      (stateDerivative L t' [a, b, 0, 0, cx, d, 0, 0] σ0).2 =
        [0, 0, 0, 0, 0, 0, 0, 0] :=
    fun t' σ0 => twoMass_zero_deriv L σ0 t' _ hc hm rfl rfl rfl rfl
  have hstage : ∀ c : ℝ,
      vadd [a, b, 0, 0, cx, d, 0, 0] (vsmul c [0, 0, 0, 0, 0, 0, 0, 0]) =
        [a, b, 0, 0, cx, d, 0, 0] := by
    intro c
    simp [vadd, vsmul]
  simp only [RungeKutta45.integrate, hz, hstage]
  simp [vadd, vsmul]

end SpatialLayout

namespace SpatialLayout

/-- One fuel unit suffices for `_stepSafely` when the tentative position
clashes with no other mass: the step is committed directly. -/
theorem stepSafely_commit (L : SpatialLayout) (n : ℕ) (σ : Store) (mass : ℕ)
    (st : Vec2) (b : Bool)
    (hclear : ∀ m ∈ L.masses, m ≠ mass →
      ¬ pdistance ((σ mass).pos + st) (σ m).pos < SAFE_DISTANCE) :
    stepSafely L (n + 1) σ mass st b =
      some (σ.set mass { σ mass with pos := (σ mass).pos + st }, b) := by
  rw [stepSafely]
  dsimp only
  have hf : L.masses.find? (fun m => decide (m ≠ mass) &&
      decide (pdistance ((σ mass).pos + st) (σ m).pos < SAFE_DISTANCE)) =
        none := by
    rw [List.find?_eq_none]
    intro x hx
    simp only [Bool.and_eq_true, decide_eq_true_eq, not_and]
    intro hxm
    exact hclear x hx hxm
  rw [hf]

end SpatialLayout

namespace SpatialLayout

/-- Store with a fixed mass "A" at the origin (identifier 0) and a free mass
"B" at `(1, 0)` (identifier 1). -/
def wStore : Store :=
  fun i => if i = 0 then mkMassFixed "A" (0, 0) else mkMass "B" (1, 0)

/-- The layout owning both masses, built through `addMass`. -/
def wLayout : SpatialLayout :=
  addMass wStore (addMass wStore (newLayout false) 0) 1

/-- The `_pushStateSafely` stage of the witness trace: identical old and new
states with the two masses a unit apart, so both safe steps commit without
any bounce. -/
theorem wPss_eval (L : SpatialLayout) (σ4 : Store) (hm : L.masses = [0, 1]) :
    ∃ σf, pushStateSafely σ4 L [0, 0, 0, 0, 1, 0, 0, 0]
      [0, 0, 0, 0, 1, 0, 0, 0] 1 = some (σf, false) := by
  unfold pushStateSafely
  dsimp only
  rw [hm]
  have key : ∀ σp : Store, (σp 0).pos = ((0 : ℝ), (0 : ℝ)) →
      (σp 1).pos = ((1 : ℝ), (0 : ℝ)) →
      ∃ σf, List.foldlM
        (fun (st : Store × Bool) (p : ℕ × ℕ) =>
          stepSafely L 1 st.1 p.2
            ((vsub [0, 0, 0, 0, 1, 0, 0, 0] [0, 0, 0, 0, 1, 0, 0, 0]).getD
                (4 * p.1) 0,
              (vsub [0, 0, 0, 0, 1, 0, 0, 0] [0, 0, 0, 0, 1, 0, 0, 0]).getD
                (4 * p.1 + 1) 0) st.2)
        (σp, false) [((0 : ℕ), (0 : ℕ)), (1, 1)] = some (σf, false) := by
    intro σp h0 h1
    rw [List.foldlM_cons]
    rw [stepSafely_commit L 0 σp 0 _ false ?hc1]
    case hc1 =>
      intro m hmem hne
      rw [hm] at hmem
      simp only [List.mem_cons, List.not_mem_nil, or_false] at hmem
      rcases hmem with rfl | rfl
      · exact absurd rfl hne
      · rw [h0, h1]
        refine not_pdistance_lt ?_
        norm_num [vsub, List.getD, SAFE_DISTANCE]
    rw [Option.bind_eq_bind, Option.some_bind]
    rw [List.foldlM_cons]
    dsimp only
    rw [stepSafely_commit L 0 _ 1 _ false ?hc2]
    case hc2 =>
      intro m hmem hne
      rw [hm] at hmem
      simp only [List.mem_cons, List.not_mem_nil, or_false] at hmem
      rcases hmem with rfl | rfl
      · rw [Store.get_set_ne _ _ (by norm_num : (1 : ℕ) ≠ 0),
          Store.get_set_same]
        dsimp only
        rw [h0, h1]
        refine not_pdistance_lt ?_
        norm_num [vsub, List.getD, SAFE_DISTANCE]
      · exact absurd rfl hne
    rw [Option.bind_eq_bind, Option.some_bind]
    rw [List.foldlM_nil]
    exact ⟨_, rfl⟩
  refine key _ ?_ ?_ <;>
    simp [hm, pushState, Store.set, List.enum, List.enumFrom, List.getD]

end SpatialLayout

namespace SpatialLayout

/-- The witness trace: one completed `step()` on the two-mass layout, with
no bounce. -/
theorem wStep_eval : ∃ pr, step (wStore, wLayout) 1 = some pr ∧
    pr.2.bounced_last_step = false := by
  unfold step
  dsimp only
  rw [if_pos (show wLayout.system_changed = true from rfl)]
  rw [show pullState wStore wLayout = [0, 0, 0, 0, 1, 0, 0, 0] from rfl]
  dsimp only
  rw [twoMass_integrate_y _ _ _ _ 0 0 1 0 rfl rfl]
  set L1 : SpatialLayout :=
    { constraints := wLayout.constraints, masses := wLayout.masses,
      system_changed := false,
      bounced_last_step := wLayout.bounced_last_step,
      energy_log := wLayout.energy_log, has_hook := wLayout.has_hook,
      hook_runs := wLayout.hook_runs, ode_y := [0, 0, 0, 0, 1, 0, 0, 0],
      ode_t := wLayout.ode_t } with hL1
  set r := RungeKutta45.integrate (stateDerivative L1) wStore wLayout.ode_t
    [0, 0, 0, 0, 1, 0, 0, 0] (wLayout.ode_t + INTEGRATION_DT) with hr
  set L2 : SpatialLayout :=
    { constraints := wLayout.constraints, masses := wLayout.masses,
      system_changed := false,
      bounced_last_step := wLayout.bounced_last_step,
      energy_log := wLayout.energy_log, has_hook := wLayout.has_hook,
      hook_runs := wLayout.hook_runs, ode_y := [0, 0, 0, 0, 1, 0, 0, 0],
      ode_t := r.2.2 } with hL2
  obtain ⟨σf, hσf⟩ := wPss_eval L2 r.1 rfl
  rw [hσf]
  dsimp only
  refine ⟨_, rfl, ?_⟩
  rw [markStateChanged_bounced]

end SpatialLayout

namespace SpatialLayout

theorem step_safe_separation_witness :
    ∃ σ2 L2, step (wStore, wLayout) 1 = some (σ2, L2) ∧
      ∀ i ∈ wLayout.masses, ∀ j ∈ wLayout.masses, i ≠ j →
        SAFE_DISTANCE ≤ pdistance (σ2 i).pos (σ2 j).pos := by
  obtain ⟨pr, hpr, -⟩ := wStep_eval
  exact ⟨pr.1, pr.2, hpr,
    step_safe_separation wStore wLayout 1 pr.1 pr.2 (by decide) hpr⟩

end SpatialLayout

/-! ## Claim C2: the ordering phase of `initialiseState` -/

/-- Modelled from the spec (§4.G step 1): the greedy completion score — the
number of still-pending constraints that placing mass `m` would complete,
a constraint being completed when its remaining unplaced participants
become empty. -/
def specCompletionScore (cs : List Constraint) (ms : List ℕ) (m : ℕ) : ℕ :=
  (cs.filter fun c => decide (∀ i ∈ c.masses, i ∈ ms → i = m)).length

def c2Store : Store :=
  fun i => if i = 0 then mkMass "A" else if i = 1 then mkMass "B"
    else mkMass "C"

/-- C2: the ordering phase does not implement the greedy completion rule.
With masses `A, B, C` (identifiers 0, 1, 2, in insertion order) and a single
distance constraint between `A` and `C`, the code's ordering phase returns
the plain insertion order `[A, B, C]` — its score expression never mentions
the candidate mass and the code takes the index of the *minimum* — although
at the second pick placing `C` would complete one pending constraint while
placing `B` completes none, so the spec's greedy rule demands `C` before
`B`. -/
theorem initialiseOrdering_not_greedy :
    (SpatialLayout.initialiseOrdering c2Store 4
        [Constraint.distance 0 2 1 1 (-1)] [0, 1, 2] [] []).map Prod.fst =
      some [0, 1, 2] ∧
    specCompletionScore [Constraint.distance 0 2 1 1 (-1)] [1, 2] 2 = 1 ∧
    specCompletionScore [Constraint.distance 0 2 1 1 (-1)] [1, 2] 1 = 0 := by
  refine ⟨?_, ?_, ?_⟩ <;> decide


/-! ## Claim C4: fixed masses under `step()` -/

/-- Store with a fixed mass "A" at the origin and a free mass "B" at
`(1/10, 0)`, inside A's safe-distance disc. -/
def c4Store : Store :=
  fun i => if i = 0 then mkMassFixed "A" (0, 0) else mkMass "B" (1 / 10, 0)

def c4Layout : SpatialLayout :=
  SpatialLayout.addMass c4Store
    (SpatialLayout.addMass c4Store (SpatialLayout.newLayout false) 0) 1

/-- The degenerate line-circle intersection of the counterexample trace:
the "segment" from the fixed mass to itself against the safe disc of the
mass at `(1/10, 0)`.  (In the source this computation divides zero by zero,
producing NaN; with the exact-arithmetic convention `0 / 0 = 0` it returns
the point `(-1/10, 0)` — either way the fixed mass's position is not
preserved.) -/
theorem c4_fci :
    firstCircleIntersect ((0 : ℝ), (0 : ℝ)) ((0 : ℝ), (0 : ℝ))
      ((1 : ℝ) / 10, (0 : ℝ)) SAFE_DISTANCE = some (-(1 / 10 : ℝ), 0) := by
  have h4 : Real.sqrt 4 = 2 := by
    rw [show (4 : ℝ) = 2 ^ 2 by norm_num]
    exact Real.sqrt_sq (by norm_num)
  have h25 : Real.sqrt 25 = 5 := by
    rw [show (25 : ℝ) = 5 ^ 2 by norm_num]
    exact Real.sqrt_sq (by norm_num)
  have h9 : Real.sqrt 9 = 3 := by
    rw [show (9 : ℝ) = 3 ^ 2 by norm_num]
    exact Real.sqrt_sq (by norm_num)
  have h100 : Real.sqrt 100 = 10 := by
    rw [show (100 : ℝ) = 10 ^ 2 by norm_num]
    exact Real.sqrt_sq (by norm_num)
  unfold firstCircleIntersect
  norm_num [SAFE_DISTANCE, h4, h25, h9, h100]

theorem arctan2_zero_neg {x : ℝ} (hx : x < 0) : arctan2 0 x = Real.pi := by
  unfold arctan2
  rw [show (⟨x, 0⟩ : ℂ) = (x : ℂ) from rfl]
  exact Complex.arg_ofReal_of_neg hx

theorem arctan2_zero_nonneg {x : ℝ} (hx : 0 ≤ x) : arctan2 0 x = 0 := by
  unfold arctan2
  rw [show (⟨x, 0⟩ : ℂ) = (x : ℂ) from rfl]
  exact Complex.arg_ofReal_of_nonneg hx

/-- The bounce direction of the counterexample trace is the positive x
direction. -/
theorem c4_dir :
    reflectedDirection ((0 : ℝ), (0 : ℝ)) (-(1 / 10 : ℝ), 0)
      ((1 : ℝ) / 10, (0 : ℝ)) = 0 := by
  unfold reflectedDirection
  norm_num
  rw [arctan2_zero_neg (by norm_num : (-(1 / 5 : ℝ)) < 0),
    arctan2_zero_neg (by norm_num : (-(1 / 10 : ℝ)) < 0),
    arctan2_zero_nonneg (by norm_num : (0 : ℝ) ≤ 1 / 5)]
  rw [show Real.pi - (Real.pi - 0) = 0 by ring]
  exact angleWrap_eq_of_mem (by linarith [Real.pi_pos]) Real.pi_pos

/-- The reflected position of the counterexample trace. -/
theorem c4_refl :
    reflectedPosition ((0 : ℝ), (0 : ℝ)) ((0 : ℝ), (0 : ℝ))
      (-(1 / 10 : ℝ), 0) 0 = (-(1 / 5 : ℝ), 0) := by
  have h100 : Real.sqrt 100 = 10 := by
    rw [show (100 : ℝ) = 10 ^ 2 by norm_num]
    exact Real.sqrt_sq (by norm_num)
  unfold reflectedPosition
  norm_num [h100, Real.cos_zero, Real.sin_zero, smul2]

namespace SpatialLayout

/-- The `_pushStateSafely` stage of the counterexample trace: the zero-step
of the fixed mass at the origin clashes with the mass at `(1/10, 0)`, the
collision response moves the fixed mass, and the loop then commits. -/
theorem c4Pss_eval (L : SpatialLayout) (σ4 : Store) (hm : L.masses = [0, 1]) :
    ∃ σf, pushStateSafely σ4 L [0, 0, 0, 0, 1 / 10, 0, 0, 0]
        [0, 0, 0, 0, 1 / 10, 0, 0, 0] 2 = some (σf, true) ∧
      (σf 0).pos = (-(1 / 5 : ℝ), 0) := by
  unfold pushStateSafely
  dsimp only
  rw [hm]
  have key : ∀ σp : Store, (σp 0).pos = ((0 : ℝ), (0 : ℝ)) →
      (σp 1).pos = ((1 / 10 : ℝ), (0 : ℝ)) →
      ∃ σf, List.foldlM
        (fun (st : Store × Bool) (p : ℕ × ℕ) =>
          stepSafely L 2 st.1 p.2
            ((vsub [0, 0, 0, 0, 1 / 10, 0, 0, 0]
                [0, 0, 0, 0, 1 / 10, 0, 0, 0]).getD (4 * p.1) 0,
              (vsub [0, 0, 0, 0, 1 / 10, 0, 0, 0]
                [0, 0, 0, 0, 1 / 10, 0, 0, 0]).getD (4 * p.1 + 1) 0) st.2)
        (σp, false) [((0 : ℕ), (0 : ℕ)), (1, 1)] = some (σf, true) ∧
        (σf 0).pos = (-(1 / 5 : ℝ), 0) := by
    intro σp h0 h1
    rw [List.foldlM_cons]
    dsimp only
    rw [show ((vsub [0, 0, 0, 0, 1 / 10, 0, 0, 0]
        [0, 0, 0, 0, 1 / 10, 0, 0, 0]).getD (4 * 0) 0,
        (vsub [0, 0, 0, 0, 1 / 10, 0, 0, 0]
        [0, 0, 0, 0, 1 / 10, 0, 0, 0]).getD (4 * 0 + 1) 0) = ((0 : ℝ), (0 : ℝ))
      by norm_num [vsub, List.getD]]
    rw [stepSafely]
    dsimp only
    rw [h0]
    rw [show ((0 : ℝ), (0 : ℝ)) + ((0 : ℝ), (0 : ℝ)) = ((0 : ℝ), (0 : ℝ)) by
      rw [Prod.mk_add_mk]; norm_num]
    rw [hm]
    rw [List.find?_cons_of_neg _ (by simp), List.find?_cons_of_pos _ ?hp1]
    case hp1 =>
      simp only [decide_eq_true_eq, Bool.and_eq_true]
      refine ⟨by norm_num, ?_⟩
      rw [h1]
      exact pdistance_lt (by norm_num [SAFE_DISTANCE])
        (by norm_num [SAFE_DISTANCE])
    dsimp only
    rw [h1, c4_fci]
    dsimp only
    rw [c4_dir, c4_refl]
    rw [show ((-(1 / 5 : ℝ), (0 : ℝ)) - (-(1 / 10 : ℝ), (0 : ℝ))) =
      ((-(1 / 10 : ℝ)), (0 : ℝ)) by rw [Prod.mk_sub_mk]; norm_num]
    rw [stepSafely_commit L 0 _ 0 _ true ?hc2]
    case hc2 =>
      intro m hmem hne
      rw [hm] at hmem
      simp only [List.mem_cons, List.not_mem_nil, or_false] at hmem
      rcases hmem with rfl | rfl
      · exact absurd rfl hne
      · simp only [Store.set]
        norm_num
        rw [h1]
        exact not_lt.mp (not_pdistance_lt (by norm_num [SAFE_DISTANCE]))
    rw [Option.bind_eq_bind, Option.some_bind]
    rw [List.foldlM_cons]
    dsimp only
    rw [show ((vsub [0, 0, 0, 0, 1 / 10, 0, 0, 0]
        [0, 0, 0, 0, 1 / 10, 0, 0, 0]).getD (4 * 1) 0,
        (vsub [0, 0, 0, 0, 1 / 10, 0, 0, 0]
        [0, 0, 0, 0, 1 / 10, 0, 0, 0]).getD (4 * 1 + 1) 0) = ((0 : ℝ), (0 : ℝ))
      by norm_num [vsub, List.getD]]
    rw [stepSafely_commit L 1 _ 1 _ true ?hc3]
    case hc3 =>
      intro m hmem hne
      rw [hm] at hmem
      simp only [List.mem_cons, List.not_mem_nil, or_false] at hmem
      rcases hmem with rfl | rfl
      · simp only [Store.set]
        norm_num
        rw [h1]
        exact not_lt.mp (not_pdistance_lt (by norm_num [SAFE_DISTANCE]))
      · exact absurd rfl hne
    rw [Option.bind_eq_bind, Option.some_bind]
    rw [List.foldlM_nil]
    refine ⟨_, rfl, ?_⟩
    simp only [Store.set]
    norm_num
  refine key _ ?_ ?_ <;>
    simp [hm, pushState, Store.set, List.enum, List.enumFrom, List.getD]

end SpatialLayout

namespace SpatialLayout

/-- C4: contrary to the spec, `step()` does not leave fixed masses in
place.  `_stepSafely` never consults the `fixed` flag, so when another mass
sits within the safe distance of a fixed mass, the collision response moves
the fixed mass.  Here the fixed mass "A" starts at the origin with the free
mass "B" at `(1/10, 0)`; after one completed `step()` the fixed mass has
been displaced (to `(-1/5, 0)` under the exact-arithmetic convention
`0 / 0 = 0`; the Python source divides zero by zero at the same spot, so
there the fixed mass's position becomes NaN — in neither reading is it
preserved). -/
theorem step_moves_fixed_mass_counterexample :
    (c4Store 0).fixed = true ∧ (c4Store 0).pos = ((0 : ℝ), 0) ∧
    ∃ pr, step (c4Store, c4Layout) 2 = some pr ∧
      (pr.1 0).pos ≠ (c4Store 0).pos := by
  refine ⟨rfl, rfl, ?_⟩
  unfold step
  dsimp only
  rw [if_pos (show c4Layout.system_changed = true from rfl)]
  rw [show pullState c4Store c4Layout = [0, 0, 0, 0, 1 / 10, 0, 0, 0]
    from rfl]
  dsimp only
  rw [twoMass_integrate_y _ _ _ _ 0 0 (1 / 10) 0 rfl rfl]
  set L1 : SpatialLayout :=
    { constraints := c4Layout.constraints, masses := c4Layout.masses,
      system_changed := false,
      bounced_last_step := c4Layout.bounced_last_step,
      energy_log := c4Layout.energy_log, has_hook := c4Layout.has_hook,
      hook_runs := c4Layout.hook_runs, ode_y := [0, 0, 0, 0, 1 / 10, 0, 0, 0],
      ode_t := c4Layout.ode_t } with hL1
  set r := RungeKutta45.integrate (stateDerivative L1) c4Store c4Layout.ode_t
    [0, 0, 0, 0, 1 / 10, 0, 0, 0] (c4Layout.ode_t + INTEGRATION_DT) with hr
  set L2 : SpatialLayout :=
    { constraints := c4Layout.constraints, masses := c4Layout.masses,
      system_changed := false,
      bounced_last_step := c4Layout.bounced_last_step,
      energy_log := c4Layout.energy_log, has_hook := c4Layout.has_hook,
      hook_runs := c4Layout.hook_runs, ode_y := [0, 0, 0, 0, 1 / 10, 0, 0, 0],
      ode_t := r.2.2 } with hL2
  obtain ⟨σf, hσf, hpos⟩ := c4Pss_eval L2 r.1 rfl
  rw [hσf]
  dsimp only
  refine ⟨_, rfl, ?_⟩
  rw [hpos]
  intro h
  have h1 := congrArg Prod.fst h
  rw [show (c4Store 0).pos = ((0 : ℝ), 0) from rfl] at h1
  norm_num at h1

end SpatialLayout

/-- Frame of a fold of keyed store updates: a slot whose key never occurs is
untouched. -/
theorem foldl_set_key_frame {α : Type} (key : α → ℕ)
    (g : α → MassData → MassData) (l : List α) (σ0 : Store) (i : ℕ)
    (hi : ∀ a ∈ l, key a ≠ i) :
    (l.foldl (fun σacc x => σacc.set (key x) (g x (σacc (key x)))) σ0) i
      = σ0 i := by
  induction l generalizing σ0 with
  | nil => rfl
  | cons x l ih =>
      rw [List.foldl_cons]
      rw [ih _ fun a ha => hi a (List.mem_cons_of_mem _ ha)]
      exact Store.get_set_ne _ _ (Ne.symm (hi x (List.mem_cons_self x l)))

/-- A fold of keyed store updates over a list with pairwise distinct keys
rewrites a member's slot by its own update applied to the initial value. -/
theorem foldl_set_key_get {α : Type} (key : α → ℕ)
    (g : α → MassData → MassData) (l : List α) (σ0 : Store) (a : α)
    (hn : (l.map key).Nodup) (ha : a ∈ l) :
    (l.foldl (fun σacc x => σacc.set (key x) (g x (σacc (key x)))) σ0) (key a)
      = g a (σ0 (key a)) := by
  induction l generalizing σ0 with
  | nil => cases ha
  | cons x l ih =>
      simp only [List.map_cons, List.nodup_cons] at hn
      rw [List.foldl_cons]
      rcases List.mem_cons.mp ha with rfl | hal
      · rw [foldl_set_key_frame _ _ _ _ _ ?hk]
        case hk =>
          intro b hb hkb
          exact hn.1 (hkb ▸ List.mem_map_of_mem key hb)
        rw [Store.get_set_same]
      · have hne : key a ≠ key x := by
          intro hk
          exact hn.1 (hk ▸ List.mem_map_of_mem key hal)
        rw [ih _ hn.2 hal, Store.get_set_ne _ _ hne]

/-- The pair `(j, l[j])` is a member of `l.enum`. -/
theorem mem_enum_get {l : List ℕ} {j : ℕ} (hj : j < l.length) :
    (j, l.get ⟨j, hj⟩) ∈ l.enum := by
  have hlen : j < l.enum.length := by simpa using hj
  have hmem := List.getElem_mem hlen
  rwa [List.getElem_enum] at hmem

namespace SpatialLayout

/-- `_pushState` rewrites a member slot's position and velocity from its
4-entry block of the phase vector. -/
theorem pushState_get (σ : Store) (L : SpatialLayout) (y : List ℝ)
    (j : ℕ) (hj : j < L.masses.length) (hn : L.masses.Nodup) :
    pushState σ L y (L.masses.get ⟨j, hj⟩) =
      { σ (L.masses.get ⟨j, hj⟩) with
          pos := (y.getD (4 * j) 0, y.getD (4 * j + 1) 0),
          vel := (y.getD (4 * j + 2) 0, y.getD (4 * j + 3) 0) } := by
  unfold pushState
  exact foldl_set_key_get Prod.snd
    (fun p d => { d with
        pos := (y.getD (4 * p.1) 0, y.getD (4 * p.1 + 1) 0),
        vel := (y.getD (4 * p.1 + 2) 0, y.getD (4 * p.1 + 3) 0) })
    L.masses.enum σ (j, L.masses.get ⟨j, hj⟩)
    (by rw [List.enum_map_snd]; exact hn) (mem_enum_get hj)

end SpatialLayout

/-- A fixed-guarded store update never touches a fixed slot. -/
theorem guardedSet_frame (σ : Store) (x : ℕ) (d : MassData) (m : ℕ)
    (hf : (σ m).fixed = true) :
    (if (σ x).fixed then σ else σ.set x d) m = σ m := by
  split
  · rfl
  · rename_i hg
    rcases eq_or_ne m x with rfl | hne
    · exact absurd hf hg
    · exact Store.get_set_ne _ _ hne

namespace Constraint

/-- Every force application in `applyForce` is guarded by the `fixed` flag,
so a fixed mass's record is never modified. -/
theorem applyForce_fixed_frame (σ : Store) (c : Constraint) (m : ℕ)
    (hf : (σ m).fixed = true) : (c.applyForce σ) m = σ m := by
  cases c with
  | distance a b l k t =>
      simp only [applyForce]
      rw [guardedSet_frame _ b _ m ?hfb]
      case hfb =>
        rw [guardedSet_frame _ a _ m hf]
        exact hf
      rw [guardedSet_frame _ a _ m hf]
  | angleGlobal a b l k t =>
      simp only [applyForce]
      rw [guardedSet_frame _ b _ m ?hfb2]
      case hfb2 =>
        rw [guardedSet_frame _ a _ m hf]
        exact hf
      rw [guardedSet_frame _ a _ m hf]
  | angleLocal a b c l k t =>
      simp only [applyForce]
      rw [guardedSet_frame _ c _ m ?hfc]
      case hfc =>
        rw [guardedSet_frame _ b _ m ?hfb3]
        case hfb3 =>
          rw [guardedSet_frame _ a _ m hf]
          exact hf
        rw [guardedSet_frame _ a _ m hf]
        exact hf
      rw [guardedSet_frame _ b _ m ?hfb4]
      case hfb4 =>
        rw [guardedSet_frame _ a _ m hf]
        exact hf
      rw [guardedSet_frame _ a _ m hf]

end Constraint

namespace SpatialLayout

/-- Folding constraint forces over the store never touches a fixed slot. -/
theorem constraints_fold_fixed_frame (cs : List Constraint) (σ : Store)
    (m : ℕ) (hf : (σ m).fixed = true) :
    (cs.foldl (fun σacc c => c.applyForce σacc) σ) m = σ m := by
  induction cs generalizing σ with
  | nil => rfl
  | cons c cs ih =>
      rw [List.foldl_cons,
        ih _ (by rw [Constraint.applyForce_fixed_frame _ _ _ hf]; exact hf),
        Constraint.applyForce_fixed_frame _ _ _ hf]

/-- `_refreshForces` only zeroes the acceleration of a fixed mass: friction
is a no-op and every constraint force is guarded. -/
theorem refreshForces_fixed_get (σ : Store) (L : SpatialLayout) (m : ℕ)
    (hn : L.masses.Nodup) (hm : m ∈ L.masses) (hf : (σ m).fixed = true) :
    refreshForces σ L m = { σ m with acc := ((0 : ℝ), (0 : ℝ)) } := by
  simp only [refreshForces]
  have h1 := foldl_set_key_get id
    (fun i d => ({ d with acc := ((0 : ℝ), (0 : ℝ)) }).applyFriction)
    L.masses σ m (by rw [List.map_id]; exact hn) hm
  simp only [id_eq] at h1
  rw [constraints_fold_fixed_frame _ _ _ ?hffix]
  case hffix =>
    rw [h1]
    simp [MassData.applyFriction, hf]
  rw [h1]
  simp [MassData.applyFriction, hf]

end SpatialLayout

/-- A `flatMap` of 4-entry blocks has length `4 * n`. -/
theorem flatMap4_length (f : ℕ → List ℝ) (hf : ∀ i, (f i).length = 4)
    (l : List ℕ) : (l.flatMap f).length = 4 * l.length := by
  induction l with
  | nil => rfl
  | cons x l ih =>
      rw [List.flatMap_cons, List.length_append, hf, ih, List.length_cons]
      ring

/-- Reading entry `4j + r` of a `flatMap` of 4-entry blocks reads entry `r`
of the `j`-th block. -/
theorem flatMap4_getD (f : ℕ → List ℝ) (hf : ∀ i, (f i).length = 4)
    (l : List ℕ) : ∀ (j : ℕ) (hj : j < l.length) (r : ℕ), r < 4 →
    (l.flatMap f).getD (4 * j + r) 0 = (f (l.get ⟨j, hj⟩)).getD r 0 := by
  induction l with
  | nil => intro j hj; cases hj
  | cons x l ih =>
      intro j hj r hr
      cases j with
      | zero =>
          rw [List.flatMap_cons, show 4 * 0 + r = r by ring,
            List.getD_append _ _ _ _ (by rw [hf]; omega)]
          rfl
      | succ j =>
          rw [List.flatMap_cons,
            show 4 * (j + 1) + r = (f x).length + (4 * j + r) by rw [hf]; ring,
            List.getD_append_right _ _ _ _ (Nat.le_add_right _ _),
            Nat.add_sub_cancel_left]
          exact ih j (Nat.lt_of_succ_lt_succ hj) r hr

theorem vadd_length (u v : List ℝ) :
    (vadd u v).length = min u.length v.length := List.length_zipWith _ _ _

theorem vsmul_length (c : ℝ) (v : List ℝ) :
    (vsmul c v).length = v.length := List.length_map _ _

theorem vsub_length (u v : List ℝ) :
    (vsub u v).length = min u.length v.length := List.length_zipWith _ _ _

theorem vadd_getD (u v : List ℝ) (n : ℕ) (hu : n < u.length)
    (hv : n < v.length) : (vadd u v).getD n 0 = u.getD n 0 + v.getD n 0 := by
  have hn : n < (vadd u v).length := by rw [vadd_length]; omega
  rw [List.getD_eq_getElem _ _ hn, List.getD_eq_getElem _ _ hu,
    List.getD_eq_getElem _ _ hv]
  simp [vadd]

theorem vsub_getD (u v : List ℝ) (n : ℕ) (hu : n < u.length)
    (hv : n < v.length) : (vsub u v).getD n 0 = u.getD n 0 - v.getD n 0 := by
  have hn : n < (vsub u v).length := by rw [vsub_length]; omega
  rw [List.getD_eq_getElem _ _ hn, List.getD_eq_getElem _ _ hu,
    List.getD_eq_getElem _ _ hv]
  simp [vsub]

theorem vsmul_getD (c : ℝ) (v : List ℝ) (n : ℕ) (hv : n < v.length) :
    (vsmul c v).getD n 0 = c * v.getD n 0 := by
  have hn : n < (vsmul c v).length := by rw [vsmul_length]; omega
  rw [List.getD_eq_getElem _ _ hn, List.getD_eq_getElem _ _ hv]
  simp [vsmul]

namespace SpatialLayout

/-- `_stateDerivative` on a fixed member slot: the store ends with the
pushed position and velocity and zero acceleration, and the derivative
block is the pushed velocity followed by zeros. -/
theorem stateDerivative_fixed (L : SpatialLayout) (σs : Store) (t : ℝ)
    (y : List ℝ) (j : ℕ) (hj : j < L.masses.length) (hn : L.masses.Nodup)
    (hf : (σs (L.masses.get ⟨j, hj⟩)).fixed = true) :
    (stateDerivative L t y σs).1 (L.masses.get ⟨j, hj⟩) =
      { σs (L.masses.get ⟨j, hj⟩) with
          pos := (y.getD (4 * j) 0, y.getD (4 * j + 1) 0),
          vel := (y.getD (4 * j + 2) 0, y.getD (4 * j + 3) 0),
          acc := ((0 : ℝ), (0 : ℝ)) } ∧
    (stateDerivative L t y σs).2.length = 4 * L.masses.length ∧
    ((stateDerivative L t y σs).2.getD (4 * j) 0 = y.getD (4 * j + 2) 0 ∧
      (stateDerivative L t y σs).2.getD (4 * j + 1) 0 = y.getD (4 * j + 3) 0 ∧
      (stateDerivative L t y σs).2.getD (4 * j + 2) 0 = 0 ∧
      (stateDerivative L t y σs).2.getD (4 * j + 3) 0 = 0) := by
  have hmem : L.masses.get ⟨j, hj⟩ ∈ L.masses := List.get_mem _ _ _
  have hpush := pushState_get σs L y j hj hn
  have hpf : (pushState σs L y (L.masses.get ⟨j, hj⟩)).fixed = true := by
    rw [hpush]; exact hf
  have hσ2 := refreshForces_fixed_get (pushState σs L y) L _ hn hmem hpf
  rw [hpush] at hσ2
  have hd : (stateDerivative L t y σs).2 = L.masses.flatMap (fun i =>
      [(refreshForces (pushState σs L y) L i).vel.1,
        (refreshForces (pushState σs L y) L i).vel.2,
        (refreshForces (pushState σs L y) L i).acc.1,
        (refreshForces (pushState σs L y) L i).acc.2]) := rfl
  have hf4 : ∀ i : ℕ, ([(refreshForces (pushState σs L y) L i).vel.1,
      (refreshForces (pushState σs L y) L i).vel.2,
      (refreshForces (pushState σs L y) L i).acc.1,
      (refreshForces (pushState σs L y) L i).acc.2] : List ℝ).length = 4 :=
    fun i => rfl
  refine ⟨?_, ?_, ?_, ?_, ?_, ?_⟩
  · show refreshForces (pushState σs L y) L _ = _
    rw [hσ2]
  · rw [hd]
    exact flatMap4_length _ hf4 _
  · rw [hd, show 4 * j = 4 * j + 0 by ring,
      flatMap4_getD _ hf4 _ j hj 0 (by omega)]
    rw [List.getD_cons_zero, hσ2]
  · rw [hd, flatMap4_getD _ hf4 _ j hj 1 (by omega)]
    rw [List.getD_cons_succ, List.getD_cons_zero, hσ2]
  · rw [hd, flatMap4_getD _ hf4 _ j hj 2 (by omega)]
    rw [List.getD_cons_succ, List.getD_cons_succ, List.getD_cons_zero, hσ2]
  · rw [hd, flatMap4_getD _ hf4 _ j hj 3 (by omega)]
    rw [List.getD_cons_succ, List.getD_cons_succ, List.getD_cons_succ,
      List.getD_cons_zero, hσ2]

end SpatialLayout

theorem stage_len (y k : List ℝ) (c : ℝ) (h : k.length = y.length) :
    (vadd y (vsmul c k)).length = y.length := by
  rw [vadd_length, vsmul_length, h, min_self]

theorem stage_getD (y k : List ℝ) (c : ℝ) (n : ℕ) (hy : n < y.length)
    (hk : n < k.length) :
    (vadd y (vsmul c k)).getD n 0 = y.getD n 0 + c * k.getD n 0 := by
  rw [vadd_getD _ _ _ hy (by rw [vsmul_length]; exact hk),
    vsmul_getD _ _ _ hk]

theorem combo_len (y k1 k2 k3 k4 : List ℝ) (h1 : k1.length = y.length)
    (h2 : k2.length = y.length) (h3 : k3.length = y.length)
    (h4 : k4.length = y.length) :
    (vadd y (vsmul INTEGRATION_DT (vsmul (1 / 6)
      (vadd (vadd (vadd k1 (vsmul 2 k2)) (vsmul 2 k3)) k4)))).length =
      y.length := by
  rw [vadd_length, vsmul_length, vsmul_length, vadd_length, vadd_length,
    vadd_length, vsmul_length, vsmul_length, h1, h2, h3, h4]
  omega

theorem combo_getD (y k1 k2 k3 k4 : List ℝ) (n : ℕ) (hy : n < y.length)
    (h1 : k1.length = y.length) (h2 : k2.length = y.length)
    (h3 : k3.length = y.length) (h4 : k4.length = y.length) :
    (vadd y (vsmul INTEGRATION_DT (vsmul (1 / 6)
      (vadd (vadd (vadd k1 (vsmul 2 k2)) (vsmul 2 k3)) k4)))).getD n 0 =
      y.getD n 0 + INTEGRATION_DT * (1 / 6 *
        (k1.getD n 0 + 2 * k2.getD n 0 + 2 * k3.getD n 0 + k4.getD n 0)) := by
  have hlen : n < (vadd y (vsmul INTEGRATION_DT (vsmul (1 / 6)
      (vadd (vadd (vadd k1 (vsmul 2 k2)) (vsmul 2 k3)) k4)))).length := by
    rw [combo_len y k1 k2 k3 k4 h1 h2 h3 h4]
    exact hy
  rw [List.getD_eq_getElem _ _ hlen]
  simp only [vadd, vsmul, List.getElem_zipWith, List.getElem_map]
  rw [List.getD_eq_getElem _ _ hy, List.getD_eq_getElem _ _ (by omega : n < k1.length),
    List.getD_eq_getElem _ _ (by omega : n < k2.length),
    List.getD_eq_getElem _ _ (by omega : n < k3.length),
    List.getD_eq_getElem _ _ (by omega : n < k4.length)]

namespace SpatialLayout

/-- One RK4 stage on a fixed member slot: the stage derivative block is
zero, the stage store keeps the slot fixed with zero acceleration, and the
next stage vector keeps the slot's velocity entries zero. -/
theorem rk4_stage_fixed (L : SpatialLayout) (σs : Store) (t : ℝ)
    (y ys : List ℝ) (c : ℝ) (j : ℕ) (hj : j < L.masses.length)
    (hn : L.masses.Nodup)
    (hf : (σs (L.masses.get ⟨j, hj⟩)).fixed = true)
    (hylen : y.length = 4 * L.masses.length)
    (hyslen : ys.length = 4 * L.masses.length)
    (hy2 : y.getD (4 * j + 2) 0 = 0) (hy3 : y.getD (4 * j + 3) 0 = 0)
    (hs2 : ys.getD (4 * j + 2) 0 = 0) (hs3 : ys.getD (4 * j + 3) 0 = 0) :
    ((stateDerivative L t ys σs).1 (L.masses.get ⟨j, hj⟩)).fixed = true ∧
    ((stateDerivative L t ys σs).1 (L.masses.get ⟨j, hj⟩)).acc =
      ((0 : ℝ), (0 : ℝ)) ∧
    (stateDerivative L t ys σs).2.length = 4 * L.masses.length ∧
    ((stateDerivative L t ys σs).2.getD (4 * j) 0 = 0 ∧
      (stateDerivative L t ys σs).2.getD (4 * j + 1) 0 = 0 ∧
      (stateDerivative L t ys σs).2.getD (4 * j + 2) 0 = 0 ∧
      (stateDerivative L t ys σs).2.getD (4 * j + 3) 0 = 0) ∧
    ((vadd y (vsmul c (stateDerivative L t ys σs).2)).length =
      4 * L.masses.length ∧
      (vadd y (vsmul c (stateDerivative L t ys σs).2)).getD (4 * j + 2) 0 = 0 ∧
      (vadd y (vsmul c (stateDerivative L t ys σs).2)).getD (4 * j + 3) 0
        = 0) := by
  obtain ⟨hs, hl, hd0, hd1, hd2, hd3⟩ :=
    stateDerivative_fixed L σs t ys j hj hn hf
  have hk0 : (stateDerivative L t ys σs).2.getD (4 * j) 0 = 0 := hd0.trans hs2
  have hk1 : (stateDerivative L t ys σs).2.getD (4 * j + 1) 0 = 0 :=
    hd1.trans hs3
  have hnext_len := stage_len y (stateDerivative L t ys σs).2 c
    (hl.trans hylen.symm)
  refine ⟨by rw [hs]; exact hf, by rw [hs], hl, ⟨hk0, hk1, hd2, hd3⟩,
    hnext_len.trans hylen, ?_, ?_⟩
  · rw [stage_getD y _ c (4 * j + 2) (by omega) (by rw [hl, ← hylen]; omega),
      hy2, hd2]
    ring
  · rw [stage_getD y _ c (4 * j + 3) (by omega) (by rw [hl, ← hylen]; omega),
      hy3, hd3]
    ring

end SpatialLayout

namespace SpatialLayout

/-- One RK4 integration step on a fixed member slot whose velocity entries
are zero: the slot's phase block is unchanged and the final store carries
zero acceleration there. -/
theorem integrate_fixed_slot (L : SpatialLayout) (σ : Store) (t t2 : ℝ)
    (y : List ℝ) (j : ℕ) (hj : j < L.masses.length) (hn : L.masses.Nodup)
    (hf : (σ (L.masses.get ⟨j, hj⟩)).fixed = true)
    (hlen : y.length = 4 * L.masses.length)
    (h2 : y.getD (4 * j + 2) 0 = 0) (h3 : y.getD (4 * j + 3) 0 = 0) :
    ((RungeKutta45.integrate (stateDerivative L) σ t y t2).1
        (L.masses.get ⟨j, hj⟩)).acc = ((0 : ℝ), (0 : ℝ)) ∧
    (RungeKutta45.integrate (stateDerivative L) σ t y t2).2.1.length =
      4 * L.masses.length ∧
    ((RungeKutta45.integrate (stateDerivative L) σ t y t2).2.1.getD
        (4 * j) 0 = y.getD (4 * j) 0 ∧
      (RungeKutta45.integrate (stateDerivative L) σ t y t2).2.1.getD
        (4 * j + 1) 0 = y.getD (4 * j + 1) 0 ∧
      (RungeKutta45.integrate (stateDerivative L) σ t y t2).2.1.getD
        (4 * j + 2) 0 = 0 ∧
      (RungeKutta45.integrate (stateDerivative L) σ t y t2).2.1.getD
        (4 * j + 3) 0 = 0) := by
  obtain ⟨hfx1, hacc1, hkl1, ⟨hk10, hk11, hk12, hk13⟩, hyl2, hy22, hy23⟩ :=
    rk4_stage_fixed L σ t y y (INTEGRATION_DT * 0.5) j hj hn hf hlen hlen
      h2 h3 h2 h3
  obtain ⟨hfx2, hacc2, hkl2, ⟨hk20, hk21, hk22, hk23⟩, hyl3, hy32, hy33⟩ :=
    rk4_stage_fixed L _ t y _ (INTEGRATION_DT * 0.5) j hj hn hfx1 hlen hyl2
      h2 h3 hy22 hy23
  obtain ⟨hfx3, hacc3, hkl3, ⟨hk30, hk31, hk32, hk33⟩, hyl4, hy42, hy43⟩ :=
    rk4_stage_fixed L _ t y _ INTEGRATION_DT j hj hn hfx2 hlen hyl3
      h2 h3 hy32 hy33
  obtain ⟨hfx4, hacc4, hkl4, ⟨hk40, hk41, hk42, hk43⟩, -, -, -⟩ :=
    rk4_stage_fixed L _ t y _ 1 j hj hn hfx3 hlen hyl4
      h2 h3 hy42 hy43
  have hb0 : 4 * j < y.length := by rw [hlen]; omega
  have hb1 : 4 * j + 1 < y.length := by rw [hlen]; omega
  have hb2 : 4 * j + 2 < y.length := by rw [hlen]; omega
  have hb3 : 4 * j + 3 < y.length := by rw [hlen]; omega
  have hcl := combo_len y _ _ _ _ (hkl1.trans hlen.symm)
    (hkl2.trans hlen.symm) (hkl3.trans hlen.symm) (hkl4.trans hlen.symm)
  have hc0 := combo_getD y _ _ _ _ (4 * j) hb0 (hkl1.trans hlen.symm)
    (hkl2.trans hlen.symm) (hkl3.trans hlen.symm) (hkl4.trans hlen.symm)
  have hc1 := combo_getD y _ _ _ _ (4 * j + 1) hb1 (hkl1.trans hlen.symm)
    (hkl2.trans hlen.symm) (hkl3.trans hlen.symm) (hkl4.trans hlen.symm)
  have hc2 := combo_getD y _ _ _ _ (4 * j + 2) hb2 (hkl1.trans hlen.symm)
    (hkl2.trans hlen.symm) (hkl3.trans hlen.symm) (hkl4.trans hlen.symm)
  have hc3 := combo_getD y _ _ _ _ (4 * j + 3) hb3 (hkl1.trans hlen.symm)
    (hkl2.trans hlen.symm) (hkl3.trans hlen.symm) (hkl4.trans hlen.symm)
  rw [hk10, hk20, hk30, hk40,
    show y.getD (4 * j) 0 + INTEGRATION_DT *
      (1 / 6 * ((0 : ℝ) + 2 * 0 + 2 * 0 + 0)) = y.getD (4 * j) 0 by ring]
    at hc0
  rw [hk11, hk21, hk31, hk41,
    show y.getD (4 * j + 1) 0 + INTEGRATION_DT *
      (1 / 6 * ((0 : ℝ) + 2 * 0 + 2 * 0 + 0)) = y.getD (4 * j + 1) 0 by ring]
    at hc1
  rw [hk12, hk22, hk32, hk42, h2,
    show (0 : ℝ) + INTEGRATION_DT * (1 / 6 * ((0 : ℝ) + 2 * 0 + 2 * 0 + 0))
      = 0 by ring] at hc2
  rw [hk13, hk23, hk33, hk43, h3,
    show (0 : ℝ) + INTEGRATION_DT * (1 / 6 * ((0 : ℝ) + 2 * 0 + 2 * 0 + 0))
      = 0 by ring] at hc3
  exact ⟨hacc4, hcl.trans hlen, hc0, hc1, hc2, hc3⟩

/-- The `_bounced_last_step` flag is monotone: once raised it stays. -/
theorem stepSafely_flag_mono (L : SpatialLayout) :
    ∀ (fuel : ℕ) (σ : Store) (mass : ℕ) (st : Vec2) (res : Store × Bool),
    stepSafely L fuel σ mass st true = some res → res.2 = true := by
  intro fuel
  induction fuel with
  | zero => intro σ mass st res h; cases h
  | succ n ih =>
      intro σ mass st res h
      rw [stepSafely] at h
      dsimp only at h
      cases hf : L.masses.find? (fun m => decide (m ≠ mass) &&
          decide (pdistance ((σ mass).pos + st) (σ m).pos < SAFE_DISTANCE)) with
      | none =>
          rw [hf] at h
          dsimp only at h
          rw [Option.some_inj] at h
          rw [← h]
      | some mu =>
          rw [hf] at h
          dsimp only at h
          cases hfc : firstCircleIntersect (σ mass).pos ((σ mass).pos + st)
              (σ mu).pos SAFE_DISTANCE with
          | none => rw [hfc] at h; cases h
          | some its =>
              rw [hfc] at h
              dsimp only at h
              exact ih _ _ _ _ h

/-- A `_stepSafely` call that returns with the bounce flag still down took
the straight-commit branch: the final store is the single position
update. -/
theorem stepSafely_no_bounce (L : SpatialLayout) (fuel : ℕ) (σ : Store)
    (mass : ℕ) (st : Vec2) (σ2 : Store)
    (h : stepSafely L fuel σ mass st false = some (σ2, false)) :
    σ2 = σ.set mass { σ mass with pos := (σ mass).pos + st } := by
  cases fuel with
  | zero => cases h
  | succ n =>
      rw [stepSafely] at h
      dsimp only at h
      cases hf : L.masses.find? (fun m => decide (m ≠ mass) &&
          decide (pdistance ((σ mass).pos + st) (σ m).pos < SAFE_DISTANCE)) with
      | none =>
          rw [hf] at h
          dsimp only at h
          rw [Option.some_inj] at h
          exact (congrArg Prod.fst h).symm
      | some mu =>
          rw [hf] at h
          dsimp only at h
          cases hfc : firstCircleIntersect (σ mass).pos ((σ mass).pos + st)
              (σ mu).pos SAFE_DISTANCE with
          | none => rw [hfc] at h; cases h
          | some its =>
              rw [hfc] at h
              dsimp only at h
              have := stepSafely_flag_mono L n _ _ _ _ h
              simp at this

end SpatialLayout

namespace SpatialLayout

/-- Flag monotonicity lifted to the `_pushStateSafely` per-mass loop. -/
theorem foldStep_flag_mono (L : SpatialLayout) (fuel : ℕ) (yd : List ℝ) :
    ∀ (l : List (ℕ × ℕ)) (σ0 : Store) (res : Store × Bool),
    l.foldlM
      (fun (st : Store × Bool) p =>
        stepSafely L fuel st.1 p.2
          (yd.getD (4 * p.1) 0, yd.getD (4 * p.1 + 1) 0) st.2)
      (σ0, true) = some res → res.2 = true := by
  intro l
  induction l with
  | nil =>
      intro σ0 res h
      simp only [List.foldlM_nil, pure, Option.some_inj] at h
      rw [← h]
  | cons p l ih =>
      intro σ0 res h
      rw [List.foldlM_cons] at h
      cases h1 : stepSafely L fuel σ0 p.2
          (yd.getD (4 * p.1) 0, yd.getD (4 * p.1 + 1) 0) true with
      | none => rw [h1] at h; cases h
      | some st1 =>
          rw [h1] at h
          simp only [Option.bind_eq_bind, Option.some_bind] at h
          obtain ⟨σ1, b1⟩ := st1
          have hb := stepSafely_flag_mono L fuel _ _ _ _ h1
          dsimp only at hb
          subst hb
          exact ih σ1 res h

/-- If the per-mass loop finishes with the bounce flag down, a slot whose
identifier never occurs in the list is untouched. -/
theorem foldStep_nb_frame (L : SpatialLayout) (fuel : ℕ) (yd : List ℝ) :
    ∀ (l : List (ℕ × ℕ)) (σ0 σf : Store),
    l.foldlM
      (fun (st : Store × Bool) p =>
        stepSafely L fuel st.1 p.2
          (yd.getD (4 * p.1) 0, yd.getD (4 * p.1 + 1) 0) st.2)
      (σ0, false) = some (σf, false) →
    ∀ i, (∀ p ∈ l, p.2 ≠ i) → σf i = σ0 i := by
  intro l
  induction l with
  | nil =>
      intro σ0 σf h i hi
      simp only [List.foldlM_nil, pure, Option.some_inj, Prod.mk.injEq] at h
      rw [h.1]
  | cons p l ih =>
      intro σ0 σf h i hi
      rw [List.foldlM_cons] at h
      cases h1 : stepSafely L fuel σ0 p.2
          (yd.getD (4 * p.1) 0, yd.getD (4 * p.1 + 1) 0) false with
      | none => rw [h1] at h; cases h
      | some st1 =>
          rw [h1] at h
          simp only [Option.bind_eq_bind, Option.some_bind] at h
          obtain ⟨σ1, b1⟩ := st1
          cases b1 with
          | true =>
              have := foldStep_flag_mono L fuel yd l σ1 _ h
              simp at this
          | false =>
              have hσ1 := stepSafely_no_bounce L fuel σ0 p.2 _ σ1 h1
              rw [ih σ1 σf h i fun q hq => hi q (List.mem_cons_of_mem _ hq),
                hσ1, Store.get_set_ne _ _ ?hne]
              case hne =>
                exact Ne.symm (hi p (List.mem_cons_self p l))

/-- If the per-mass loop finishes with the bounce flag down, every listed
mass was stepped exactly by its positional delta. -/
theorem foldStep_nb_get (L : SpatialLayout) (fuel : ℕ) (yd : List ℝ) :
    ∀ (l : List (ℕ × ℕ)) (σ0 σf : Store), (l.map Prod.snd).Nodup →
    l.foldlM
      (fun (st : Store × Bool) p =>
        stepSafely L fuel st.1 p.2
          (yd.getD (4 * p.1) 0, yd.getD (4 * p.1 + 1) 0) st.2)
      (σ0, false) = some (σf, false) →
    ∀ p ∈ l, σf p.2 = { σ0 p.2 with
      pos := (σ0 p.2).pos +
        (yd.getD (4 * p.1) 0, yd.getD (4 * p.1 + 1) 0) } := by
  intro l
  induction l with
  | nil => intro σ0 σf _ _ p hp; cases hp
  | cons q l ih =>
      intro σ0 σf hn h p hp
      simp only [List.map_cons, List.nodup_cons] at hn
      rw [List.foldlM_cons] at h
      cases h1 : stepSafely L fuel σ0 q.2
          (yd.getD (4 * q.1) 0, yd.getD (4 * q.1 + 1) 0) false with
      | none => rw [h1] at h; cases h
      | some st1 =>
          rw [h1] at h
          simp only [Option.bind_eq_bind, Option.some_bind] at h
          obtain ⟨σ1, b1⟩ := st1
          cases b1 with
          | true =>
              have := foldStep_flag_mono L fuel yd l σ1 _ h
              simp at this
          | false =>
              have hσ1 := stepSafely_no_bounce L fuel σ0 q.2 _ σ1 h1
              rcases List.mem_cons.mp hp with rfl | hpl
              · rw [foldStep_nb_frame L fuel yd l σ1 σf h p.2 ?hnotin, hσ1,
                  Store.get_set_same]
                case hnotin =>
                  intro r hr hrp
                  exact hn.1 (hrp ▸ List.mem_map_of_mem Prod.snd hr)
              · have hqp : q.2 ≠ p.2 := by
                  intro hq
                  exact hn.1 (hq ▸ List.mem_map_of_mem Prod.snd hpl)
                rw [ih σ1 σf hn.2 h p hpl, hσ1,
                  Store.get_set_ne _ _ (Ne.symm hqp)]

end SpatialLayout

namespace SpatialLayout

/-- `_pushStateSafely` without any bounce: a member slot ends at the new
state's position block (old position plus delta) with the new state's
velocity block, all other fields untouched. -/
theorem pushStateSafely_nb_get (σb : Store) (L : SpatialLayout)
    (y_a y_b : List ℝ) (fuel : ℕ) (σ2 : Store) (j : ℕ)
    (hj : j < L.masses.length) (hn : L.masses.Nodup)
    (h : pushStateSafely σb L y_a y_b fuel = some (σ2, false)) :
    σ2 (L.masses.get ⟨j, hj⟩) = { σb (L.masses.get ⟨j, hj⟩) with
      pos := (y_a.getD (4 * j) 0, y_a.getD (4 * j + 1) 0) +
        ((vsub y_b y_a).getD (4 * j) 0, (vsub y_b y_a).getD (4 * j + 1) 0),
      vel := (y_b.getD (4 * j + 2) 0, y_b.getD (4 * j + 3) 0) } := by
  simp only [pushStateSafely] at h
  have hget := foldStep_nb_get L fuel (vsub y_b y_a) L.masses.enum _ σ2
    (by rw [List.enum_map_snd]; exact hn) h
    (j, L.masses.get ⟨j, hj⟩) (mem_enum_get hj)
  dsimp only at hget
  have hσ1 := foldl_set_key_get Prod.snd
    (fun p d => { d with
      vel := (y_b.getD (4 * p.1 + 2) 0, y_b.getD (4 * p.1 + 3) 0) })
    L.masses.enum (pushState σb L y_a) (j, L.masses.get ⟨j, hj⟩)
    (by rw [List.enum_map_snd]; exact hn) (mem_enum_get hj)
  dsimp only at hσ1
  rw [hσ1, pushState_get σb L y_a j hj hn] at hget
  rw [hget]

/-- C4 (amended): `step()` leaves a fixed mass unchanged provided no bounce
occurred — the returned layout reports `bounced_last_step = false` — and the
fixed mass starts with zero velocity (as `MassFixed.__init__` guarantees):
its position is preserved and its velocity and acceleration are zero.  The
original claim holds only on the no-bounce path: `_stepSafely` never
consults the `fixed` flag, so a bouncing step can move a fixed mass. -/
theorem step_fixed_mass_invariant (σ : Store) (L : SpatialLayout)
    (fuel : ℕ) (σ2 : Store) (L2 : SpatialLayout) (hn : L.masses.Nodup)
    (hch : L.system_changed = true) (m : ℕ) (hm : m ∈ L.masses)
    (hf : (σ m).fixed = true) (hv : (σ m).vel = ((0 : ℝ), 0))
    (hstep : step (σ, L) fuel = some (σ2, L2))
    (hb : L2.bounced_last_step = false) :
    (σ2 m).pos = (σ m).pos ∧ (σ2 m).vel = ((0 : ℝ), 0) ∧
      (σ2 m).acc = ((0 : ℝ), 0) := by
  obtain ⟨⟨j, hj⟩, hjm⟩ := List.mem_iff_get.mp hm
  subst hjm
  have hpull : pullState σ L = L.masses.flatMap (fun i =>
      [(σ i).pos.1, (σ i).pos.2, (σ i).vel.1, (σ i).vel.2]) := rfl
  have hp4 : ∀ i : ℕ, ([(σ i).pos.1, (σ i).pos.2, (σ i).vel.1,
      (σ i).vel.2] : List ℝ).length = 4 := fun i => rfl
  have hplen : (pullState σ L).length = 4 * L.masses.length := by
    rw [hpull]
    exact flatMap4_length _ hp4 _
  have hp0 : (pullState σ L).getD (4 * j) 0 =
      (σ (L.masses.get ⟨j, hj⟩)).pos.1 := by
    rw [hpull, show 4 * j = 4 * j + 0 by ring,
      flatMap4_getD _ hp4 _ j hj 0 (by omega)]
    simp only [List.getD_cons_zero]
  have hp1 : (pullState σ L).getD (4 * j + 1) 0 =
      (σ (L.masses.get ⟨j, hj⟩)).pos.2 := by
    rw [hpull, flatMap4_getD _ hp4 _ j hj 1 (by omega)]
    simp only [List.getD_cons_succ, List.getD_cons_zero]
  have hp2 : (pullState σ L).getD (4 * j + 2) 0 = 0 := by
    rw [hpull, flatMap4_getD _ hp4 _ j hj 2 (by omega)]
    simp only [List.getD_cons_succ, List.getD_cons_zero]
    rw [hv]
  have hp3 : (pullState σ L).getD (4 * j + 3) 0 = 0 := by
    rw [hpull, flatMap4_getD _ hp4 _ j hj 3 (by omega)]
    simp only [List.getD_cons_succ, List.getD_cons_zero]
    rw [hv]
  obtain ⟨hacc, hylen, hy0, hy1, hy2, hy3⟩ :=
    integrate_fixed_slot
      { L with ode_y := pullState σ L, system_changed := false }
      σ L.ode_t (L.ode_t + INTEGRATION_DT) (pullState σ L) j hj hn hf hplen
      hp2 hp3
  dsimp only at hacc hylen hy0 hy1 hy2 hy3
  unfold step at hstep
  dsimp only at hstep
  rw [if_pos hch] at hstep
  dsimp only at hstep
  set r := RungeKutta45.integrate
    (stateDerivative
      { constraints := L.constraints, masses := L.masses,
        system_changed := false,
        bounced_last_step := L.bounced_last_step,
        energy_log := L.energy_log, has_hook := L.has_hook,
        hook_runs := L.hook_runs, ode_y := pullState σ L,
        ode_t := L.ode_t })
    σ L.ode_t (pullState σ L) (L.ode_t + INTEGRATION_DT) with hr
  set L2X : SpatialLayout :=
    { constraints := L.constraints, masses := L.masses,
      system_changed := false,
      bounced_last_step := L.bounced_last_step,
      energy_log := L.energy_log, has_hook := L.has_hook,
      hook_runs := L.hook_runs, ode_y := r.2.1, ode_t := r.2.2 } with hL2X
  cases hps : pushStateSafely r.1 L2X (pullState σ L) r.2.1 fuel with
  | none => rw [hps] at hstep; cases hstep
  | some pr =>
      rw [hps] at hstep
      obtain ⟨σps, bps⟩ := pr
      dsimp only at hstep
      rw [Option.some_inj, Prod.mk.injEq] at hstep
      obtain ⟨hσ2, hL2⟩ := hstep
      have hbps : bps = false := by
        rw [← hL2, markStateChanged_bounced] at hb
        exact hb
      subst hbps
      subst hσ2
      have hval := pushStateSafely_nb_get r.1 L2X (pullState σ L) r.2.1
        fuel σps j hj hn hps
      have hd0 : (vsub r.2.1 (pullState σ L)).getD (4 * j) 0 = 0 := by
        rw [vsub_getD _ _ _ (by rw [hylen]; omega) (by rw [hplen]; omega),
          hy0]
        exact sub_self _
      have hd1 : (vsub r.2.1 (pullState σ L)).getD (4 * j + 1) 0 = 0 := by
        rw [vsub_getD _ _ _ (by rw [hylen]; omega) (by rw [hplen]; omega),
          hy1]
        exact sub_self _
      refine ⟨?_, ?_, ?_⟩
      · rw [hval]
        dsimp only
        rw [hd0, hd1, hp0, hp1, Prod.mk_add_mk]
        rw [show (σ (L.masses.get ⟨j, hj⟩)).pos.1 + 0 =
          (σ (L.masses.get ⟨j, hj⟩)).pos.1 by ring,
          show (σ (L.masses.get ⟨j, hj⟩)).pos.2 + 0 =
          (σ (L.masses.get ⟨j, hj⟩)).pos.2 by ring]
      · rw [hval]
        dsimp only
        rw [hy2, hy3]
      · rw [hval]
        dsimp only
        exact hacc

end SpatialLayout

namespace SpatialLayout

theorem step_fixed_mass_invariant_witness :
    wLayout.masses.Nodup ∧ wLayout.system_changed = true ∧
    0 ∈ wLayout.masses ∧ (wStore 0).fixed = true ∧
    (wStore 0).vel = ((0 : ℝ), 0) ∧
    ∃ pr, step (wStore, wLayout) 1 = some pr ∧
      pr.2.bounced_last_step = false ∧
      ((pr.1 0).pos = (wStore 0).pos ∧ (pr.1 0).vel = ((0 : ℝ), 0) ∧
        (pr.1 0).acc = ((0 : ℝ), 0)) := by
  obtain ⟨pr, hpr, hb⟩ := wStep_eval
  exact ⟨by decide, rfl, by decide, rfl, rfl, pr, hpr, hb,
    step_fixed_mass_invariant wStore wLayout 1 pr.1 pr.2 (by decide) rfl 0
      (by decide) rfl rfl hpr hb⟩

end SpatialLayout
